import Mathlib

/-!
Verification development for the icarus caching/forwarding strategy engine
(`src/icarus/models/strategy.py`).  Python programs are shallowly embedded:
logical time and Python floats become rationals, node and content identifiers
become naturals, mutable lists become functional updates, and fallible code
returns `Option`/`Except`.  Each definition mirrors one Python function and is
annotated with the source lines it embeds.
-/

namespace EFib

/-- Node identifiers (opaque hashable ids in the source). -/
abbrev Node := Nat

/-- Logical time and Python float values, modelled as rationals. -/
abbrev Time := ℚ

/-! ## RsnNexthop (strategy.py lines 46-129) -/

/-- One soft-state forwarding hint (`class RsnNexthop`, lines 46-65).
The field `py_is_used` models the Python instance attribute `is_used` that
`RsnEntry.insert_nexthop` binds on its update path (line 207, `nh.is_used =
is_used`), which shadows the `is_used` method and is distinct from the
`used_before` flag set by the constructor. -/
structure RsnNexthop where
  nexthop : Node
  destination : Node
  distance : Nat
  time_stamp : Time
  used_before : Bool
  py_is_used : Option Bool := none
deriving Repr, DecidableEq

/-- `RsnNexthop.age` (lines 73-77); the caller invariant `now ≥ time_stamp`
(the ValueError branch) is assumed, as stated in the spec. -/
def RsnNexthop.age (nh : RsnNexthop) (time_now : Time) : Time :=
  time_now - nh.time_stamp

/-- `RsnNexthop.is_expired` (lines 79-85). -/
def RsnNexthop.is_expired (nh : RsnNexthop) (time_now expiration_interval : Time) : Bool :=
  decide (time_now - nh.time_stamp > expiration_interval)

/-- `RsnNexthop.is_used` (lines 87-88): the class method returns `used_before`. -/
def RsnNexthop.is_used (nh : RsnNexthop) : Bool :=
  nh.used_before

/-- `RsnNexthop.is_used_and_fresh` (lines 96-100). -/
def RsnNexthop.is_used_and_fresh (nh : RsnNexthop) (time_now fresh_interval : Time) : Bool :=
  nh.used_before && decide (time_now - nh.time_stamp ≤ fresh_interval)

/-- `RsnNexthop.is_fresh` (lines 123-129). -/
def RsnNexthop.is_fresh (nh : RsnNexthop) (time_now fresh_interval : Time) : Bool :=
  !(decide (time_now - nh.time_stamp > fresh_interval))

/-! ## RsnEntry (strategy.py lines 134-340) -/

/-- `class RsnEntry` (lines 134-150): a list of hints plus the two policy
windows (the `float("inf")` defaults are represented by whatever finite
rationals a caller supplies; all claims quantify over them). -/
structure RsnEntry where
  nexthops : List RsnNexthop
  fresh_interval : Time
  expiration_interval : Time
deriving Repr, DecidableEq

/-- The constructor state of `RsnEntry.__init__` (line 147): empty hint list. -/
def RsnEntry.init (fresh_interval expiration_interval : Time) : RsnEntry :=
  { nexthops := [], fresh_interval := fresh_interval,
    expiration_interval := expiration_interval }

/-- The pruning step `[x for x in self.nexthops if not x.is_expired(time, ...)]`
used at the head of every read/write method (lines 200, 229, 261, 281, 305, 331). -/
def pruneExpired (l : List RsnNexthop) (time expiration_interval : Time) : List RsnNexthop :=
  l.filter (fun x => !(x.is_expired time expiration_interval))

/-- `RsnEntry.get_nexthop` (lines 158-174). -/
def RsnEntry.get_nexthop (e : RsnEntry) (node : Node) : Option RsnNexthop :=
  e.nexthops.find? (fun nh => nh.nexthop == node)

/-- `RsnEntry.delete_nexthop` (lines 177-184). -/
def RsnEntry.delete_nexthop (e : RsnEntry) (nh : Node) : RsnEntry :=
  { e with nexthops := e.nexthops.filter (fun x => !(x.nexthop == nh)) }

/-- The update loop of `insert_nexthop` (lines 202-208): find the first hint
with the given nexthop and update `time_stamp`, `destination`, `distance` in
place; line 207 (`nh.is_used = is_used`) binds the shadow attribute instead of
touching `used_before`.  Returns `none` when no hint matches. -/
def updateFirstNexthop (nexthop dest : Node) (distance : Nat) (time : Time)
    (isUsed : Bool) : List RsnNexthop → Option (List RsnNexthop × RsnNexthop)
  | [] => none
  | nh :: rest =>
    if nh.nexthop = nexthop then
      let nh2 : RsnNexthop :=
        { nh with time_stamp := time, destination := dest, distance := distance,
                  py_is_used := some isUsed }
      some (nh2 :: rest, nh2)
    else
      match updateFirstNexthop nexthop dest distance time isUsed rest with
      | some (rest2, r) => some (nh :: rest2, r)
      | none => none

/-- `RsnEntry.insert_nexthop` (lines 186-212): prune expired hints, then either
update the first hint with the same nexthop in place, or append a new hint. -/
def RsnEntry.insert_nexthop (e : RsnEntry) (nexthop dest : Node) (distance : Nat)
    (time : Time) (isUsed : Bool) : RsnEntry × RsnNexthop :=
  let pruned := pruneExpired e.nexthops time e.expiration_interval
  match updateFirstNexthop nexthop dest distance time isUsed pruned with
  | some (l, r) => ({ e with nexthops := l }, r)
  | none =>
    let nh : RsnNexthop :=
      { nexthop := nexthop, destination := dest, distance := distance,
        time_stamp := time, used_before := isUsed, py_is_used := none }
    ({ e with nexthops := pruned ++ [nh] }, nh)

/-- One recorded call to `insert_nexthop`. -/
structure InsertOp where
  nexthop : Node
  dest : Node
  distance : Nat
  time : Time
  isUsed : Bool

/-- Apply a sequence of `insert_nexthop` calls to an entry. -/
def applyInserts (e : RsnEntry) : List InsertOp → RsnEntry
  | [] => e
  | op :: ops =>
    applyInserts (e.insert_nexthop op.nexthop op.dest op.distance op.time op.isUsed).1 ops

/-- The nexthop keys of an entry state. -/
def hintKeys (l : List RsnNexthop) : List Node :=
  l.map (fun nh => nh.nexthop)

/-- `RsnEntry.get_freshest_except_node` (lines 270-290), embedded exactly: the
running fold seeds `freshest` with the first non-expired hint even when that
hint belongs to the excluded node, and only the final fixup turns an excluded
winner into `None`.  Returns the pruned entry and the selected hint. -/
def RsnEntry.get_freshest_except_node (e : RsnEntry) (time : Time) (node : Node) :
    RsnEntry × Option RsnNexthop :=
  let pruned := pruneExpired e.nexthops time e.expiration_interval
  let freshest := pruned.foldl
    (fun acc n =>
      match acc with
      | none => some n
      | some f => if n.age time < f.age time ∧ n.nexthop ≠ node then some n else acc)
    none
  let result :=
    match freshest with
    | some f => if f.nexthop = node then none else some f
    | none => none
  ({ e with nexthops := pruned }, result)

/-! ## AIMD quota discipline of the dynamic-cost detour strategies
(`LiraDfibOph.follow_offpath_trail` lines 1765-1782,
`Tfib_dc.follow_offpath_trail` lines 3673-3682) -/

/-- The per-position quota update applied after a detour: on failure
`n_quotas[position] = max(1, n_quotas[position]/2)` (lines 1776, 3679), on
success `n_quotas[position] += self.quota_increment` (lines 1779, 3681). -/
def detour_quota_update (success : Bool) (quota_increment q : ℚ) : ℚ :=
  if success then q + quota_increment else max 1 (q / 2)

/-- Fold a sequence of detour outcomes (`true` = success) over one position's
quota. -/
def apply_detour_outcomes (quota_increment : ℚ) (outs : List Bool) (q : ℚ) : ℚ :=
  outs.foldl (fun acc s => detour_quota_update s quota_increment acc) q

/-! ## Controller actuations -/

/-- The controller actuations issued by `process_event` implementations
(the mutating controller surface, spec.md §6). -/
inductive Action where
  | getContent (v : Node) (found : Bool)
  | forwardRequestHop (u v : Node)
  | forwardRequestPath (u v : Node)
  | forwardContentHop (u v : Node)
  | putContent (v : Node)
  | putRsnK (atNode nexthop : Node)
  | removeRsnK (atNode key : Node)
  | getRsnK (atNode key : Node)
  | followTrail (quota : ℚ) (success : Bool)
deriving Repr, DecidableEq

/-- `path_links(path)` (icarus.util): consecutive links of a path. -/
def pathLinks (path : List Node) : List (Node × Node) :=
  path.zip path.tail

/-- Python `min(xs, key=f)`: the first element attaining the minimal key
(`min` keeps the earlier element on ties). -/
def pyMinBy {κ : Type} [LinearOrder κ] (f : Node → κ) : List Node → Option Node
  | [] => none
  | a :: rest => some (rest.foldl (fun b n => if f n < f b then n else b) a)

/-! ## ProbCache (strategy.py lines 878-945) -/

/-- The read-only view surface consumed by `ProbCache`: `has_cache` and the
`cache_nodes(size=True)` capacity dictionary (`self.cache_size`), whose
membership test `n in self.cache_size` is `Option.isSome`. -/
structure ProbCacheView where
  hasCache : Node → Bool
  cache_size : Node → Option Nat

/-- One iteration of the ProbCache return loop: the link walked, the placement
probability when one was computed (`v != receiver and v in self.cache_size`),
the uniform draw consumed, and whether the content was cached at `v`. -/
structure PlacementStep where
  u : Node
  v : Node
  prob : Option ℚ
  draw : Option ℚ
  cached : Bool
deriving Repr, DecidableEq

/-- `c = len([v for v in path if self.view.has_cache(v)])` (line 929). -/
def probCacheC (view : ProbCacheView) (path : List Node) : Nat :=
  (path.filter view.hasCache).length

/-- `N = sum([self.cache_size[n] for n in path[hop - 1:] if n in
self.cache_size])` (lines 934-935). -/
def probCacheN (view : ProbCacheView) (path : List Node) (hop : Nat) : Nat :=
  ((path.drop (hop - 1)).filterMap view.cache_size).sum

/-- The return loop of `ProbCache.process_event` (lines 931-944), iterating
`hop` from 1 with running capable-node count `x` and the stream of
`random.random()` draws; fuel is instantiated with `path.length`. -/
def probCacheLoop (view : ProbCacheView) (t_tw : ℚ) (receiver : Node)
    (path : List Node) (c : Nat) : Nat → Nat → ℚ → List ℚ → List PlacementStep
  | 0, _, _, _ => []
  | fuel + 1, hop, x, draws =>
    if hop < path.length then
      let u := path.getD (hop - 1) 0
      let v := path.getD hop 0
      let N := probCacheN view path hop
      let x2 : ℚ := if (view.cache_size v).isSome then x + 1 else x
      if v ≠ receiver ∧ (view.cache_size v).isSome then
        let cap : Nat := (view.cache_size v).getD 1
        let P : ℚ := (N : ℚ) / (t_tw * (cap : ℚ)) * (x2 / (c : ℚ)) ^ c
        let d := draws.headD 0
        { u := u, v := v, prob := some P, draw := some d, cached := decide (d < P) }
          :: probCacheLoop view t_tw receiver path c fuel (hop + 1) x2 draws.tail
      else
        { u := u, v := v, prob := none, draw := none, cached := false }
          :: probCacheLoop view t_tw receiver path c fuel (hop + 1) x2 draws
    else []

/-- The whole return phase of `ProbCache.process_event` (lines 928-944) on the
already-reversed return path. -/
def probCacheReturnPhase (view : ProbCacheView) (t_tw : ℚ) (receiver : Node)
    (path : List Node) (draws : List ℚ) : List PlacementStep :=
  probCacheLoop view t_tw receiver path (probCacheC view path) path.length 1 0 draws

/-- The ProbCache placement law exactly as the spec words it (spec.md §4.2):
at hop `hop`, `c` = count of cache-capable nodes on the return path, `x` =
running count of capable nodes visited so far including the current one, `N` =
sum of cache capacities of nodes from the current hop to the path end, and
`P = (N / (t_tw * capacity(v))) * (x/c)^c`. -/
def probCacheSpecLaw (view : ProbCacheView) (t_tw : ℚ) (path : List Node)
    (hop : Nat) : ℚ :=
  let c := (path.filter (fun n => (view.cache_size n).isSome)).length
  let x := (((path.take (hop + 1)).drop 1).filter
    (fun n => (view.cache_size n).isSome)).length
  let N := ((path.drop (hop - 1)).filterMap view.cache_size).sum
  let v := path.getD hop 0
  (N : ℚ) / (t_tw * (((view.cache_size v).getD 1 : Nat) : ℚ)) * ((x : ℚ) / (c : ℚ)) ^ c

/-! ## NearestReplicaRoutingProb / NRR_PROB (strategy.py lines 1005-1067) -/

/-- View surface consumed by `NearestReplicaRoutingProb.process_event`. -/
structure NrrProbView where
  locations : List Node
  source : Node
  shortest_path : Node → Node → List Node
  path_delay : List Node → ℚ
  cache_size : Node → Option Nat
  hasCache : Node → Bool

/-- `locations.remove(source)`: drop the first occurrence. -/
def removeFirst (x : Node) : List Node → List Node
  | [] => []
  | a :: rest => if a = x then rest else a :: removeFirst x rest

/-- The source-served return loop of `NearestReplicaRoutingProb.process_event`
(lines 1041-1062).  The `elif hop == (len(path)-1)` branch (line 1060) executes
`self.controller.put_content(curr_hop)` where `curr_hop` is never bound in this
method, so reaching it raises a Python `NameError`; the embedding returns
`Except.error` there. -/
def nrrProbReturnLoop (view : NrrProbView) (t_tw : ℚ) (receiver : Node)
    (path : List Node) (c : Nat) :
    Nat → Nat → ℚ → Bool → List ℚ → List Action → Except String (List Action)
  | 0, _, _, _, _, acc => .ok acc
  | fuel + 1, hop, x, placement, draws, acc =>
    if hop < path.length then
      let u := path.getD (hop - 1) 0
      let v := path.getD hop 0
      let x2 : ℚ := if (view.cache_size v).isSome then x + 1 else x
      let acc2 := acc ++ [Action.forwardContentHop u v]
      if placement then
        nrrProbReturnLoop view t_tw receiver path c fuel (hop + 1) x2 placement draws acc2
      else if v ≠ receiver ∧ (view.cache_size v).isSome then
        let N : Nat := ((path.drop (hop - 1)).filterMap view.cache_size).sum
        let cap : Nat := (view.cache_size v).getD 1
        let P : ℚ := (N : ℚ) / (t_tw * (cap : ℚ)) * (x2 / (c : ℚ)) ^ c
        let d := draws.headD 0
        if d < P then
          nrrProbReturnLoop view t_tw receiver path c fuel (hop + 1) x2 true
            draws.tail (acc2 ++ [Action.putContent v])
        else if hop = path.length - 1 then
          .error "NameError: name curr_hop is not defined"
        else
          nrrProbReturnLoop view t_tw receiver path c fuel (hop + 1) x2 false
            draws.tail acc2
      else
        nrrProbReturnLoop view t_tw receiver path c fuel (hop + 1) x2 false draws acc2
    else .ok acc

/-- `NearestReplicaRoutingProb.process_event` (lines 1024-1067): route to the
nearest replica (excluding the source when a cached copy exists), then return
the content, probabilistically caching only when served from the source. -/
def nrrProbProcessEvent (view : NrrProbView) (t_tw : ℚ) (receiver : Node)
    (draws : List ℚ) : Except String (List Action) :=
  let nearest :=
    if 1 < view.locations.length then
      (pyMinBy (fun s => view.path_delay (view.shortest_path receiver s))
        (removeFirst view.source view.locations)).getD view.source
    else view.source
  let acc := [Action.forwardRequestPath receiver nearest,
              Action.getContent nearest true]
  let path := (view.shortest_path receiver nearest).reverse
  if view.source = nearest then
    let c := (path.filter view.hasCache).length
    nrrProbReturnLoop view t_tw receiver path c path.length 1 0 false draws acc
  else
    .ok (acc ++ (pathLinks path).map (fun p => Action.forwardContentHop p.1 p.2))

/-! ## NearestReplicaRouting / NRR (strategy.py lines 1070-1117) -/

/-- View surface consumed by `NearestReplicaRouting.process_event`;
`cacheHas v` is `view.cache_lookup(v, content)`. -/
structure NrrView where
  locations : List Node
  shortest_path : Node → Node → List Node
  hasCache : Node → Bool
  cacheHas : Node → Bool

/-- `NearestReplicaRouting.__init__` (lines 1084-1088): raise `ValueError` at
construction time for any metacaching mode other than LCE or LCD. -/
def nrrInit (metacaching : String) : Except String String :=
  if metacaching = "LCE" ∨ metacaching = "LCD" then .ok metacaching
  else .error "Metacaching policy not supported"

/-- The LCE return loop of `NearestReplicaRouting.process_event`
(lines 1102-1106). -/
def nrrLceReturn (view : NrrView) : List (Node × Node) → List Action
  | [] => []
  | (u, v) :: rest =>
    if view.hasCache v ∧ !(view.cacheHas v) then
      Action.forwardContentHop u v :: Action.putContent v :: nrrLceReturn view rest
    else
      Action.forwardContentHop u v :: nrrLceReturn view rest

/-- The LCD return loop of `NearestReplicaRouting.process_event`
(lines 1107-1113), threading the `copied` flag. -/
def nrrLcdReturn (view : NrrView) (receiver : Node) :
    Bool → List (Node × Node) → List Action
  | _, [] => []
  | copied, (u, v) :: rest =>
    if ¬copied ∧ v ≠ receiver ∧ view.hasCache v then
      Action.forwardContentHop u v :: Action.putContent v
        :: nrrLcdReturn view receiver true rest
    else
      Action.forwardContentHop u v :: nrrLcdReturn view receiver copied rest

/-- `NearestReplicaRouting.process_event` (lines 1090-1117): the stored mode is
dispatched in the return phase; the final `else: raise ValueError` (line 1114)
is the metacaching-related error path during event processing. -/
def nrrProcessEvent (view : NrrView) (metacaching : String) (receiver : Node) :
    Except String (List Action) :=
  let nearest :=
    (pyMinBy (fun s => (view.shortest_path receiver s).length) view.locations).getD receiver
  let acc := [Action.forwardRequestPath receiver nearest,
              Action.getContent nearest true]
  let path := (view.shortest_path receiver nearest).reverse
  if metacaching = "LCE" then
    .ok (acc ++ nrrLceReturn view (pathLinks path))
  else if metacaching = "LCD" then
    .ok (acc ++ nrrLcdReturn view receiver false (pathLinks path))
  else
    .error "Metacaching policy not supported"

/-- `Except.isOk` as a plain boolean. -/
def isOkB {ε α : Type} : Except ε α → Bool
  | .ok _ => true
  | .error _ => false

/-! ## Soft-state detour family: network model

`LiraDfibOph`, `LiraDfibSc` and `Tfib_dc` consult a keyed per-node hint table
through `view.peek_rsn(node, key)` with `key = repr(content)-repr(n)` and the
invariant (lines 1670-1673) that the stored nexthop equals the neighbour `n`
in the key.  The table implementation itself lives outside `src/`; state is
therefore a presence map `hints : Node → Node → Bool` plus the per-position
quota array `quota : Node → Nat → ℚ`. -/

/-- Read-only view surface for one in-flight request of the detour family
(the requested content is fixed for the event).  `hasContent v` is the result
of `controller.get_content(v)` at `v`; `rsnPosition` is modelled from the
spec: `view.get_rsn_position(node, key)` returns the table position (rank) of
the key at the node — its implementation is outside `src/`, and the embedded
claims do not depend on rank movement, so it is a static ranking. -/
structure DetourView where
  nodes : List Node
  neighbors : Node → List Node
  topoSources : List Node
  topoReceivers : List Node
  hasCache : Node → Bool
  hasContent : Node → Bool
  has_rsn_table : Node → Bool
  shortest_path : Node → Node → List Node
  source : Node
  rsnPosition : Node → Node → Nat

/-- Mutable soft state of the detour strategies: hint presence per
(node, neighbour key) and the per-position quota counters
(`rsn_table.get_quota()`). -/
structure RsnState where
  hints : Node → Node → Bool
  quota : Node → Nat → ℚ

/-- One triple `[nexthop, position, quota]` returned by
`lookup_rsn_at_node`. -/
structure RsnLookupEntry where
  nexthop : Node
  position : Nat
  quota : ℚ
deriving Repr, DecidableEq

/-- Stable insertion by a natural-number key: the new element goes before the
first strictly greater key, so equal keys keep their original order, matching
Python's stable `sort`. -/
def insertByKey {α : Type} (f : α → Nat) (a : α) : List α → List α
  | [] => [a]
  | b :: rest => if f a ≤ f b then a :: b :: rest else b :: insertByKey f a rest

/-- Stable ascending sort by a natural-number key (Python `sorted(key=...)`/
`list.sort(key=...)`). -/
def sortByKey {α : Type} (f : α → Nat) : List α → List α
  | [] => []
  | a :: rest => insertByKey f a (sortByKey f rest)

/-- `LiraDfibOph.lookup_rsn_at_node` (lines 1639-1701): filter the node's
neighbours against `ignore`, the topology sources and receivers; collect a
`[nexthop, position, quota]` triple for every present hint (each emitting a
`controller.get_rsn` actuation, line 1679); sort by position ascending and
return the first `fan_out` entries. -/
def lookup_rsn_at_node (view : DetourView) (st : RsnState) (node : Node)
    (ignore : List Node) (fan_out : Nat) : List RsnLookupEntry × List Action :=
  let ns := (view.neighbors node).filter (fun n => !(ignore.contains n))
  let ns2 := ns.filter (fun n => !(view.topoSources.contains n))
  let ns3 := ns2.filter (fun n => !(view.topoReceivers.contains n))
  let found := ns3.filter (fun n => st.hints node n)
  let entries := found.map (fun n =>
    let pos := view.rsnPosition node n
    ({ nexthop := n, position := pos, quota := st.quota node pos } : RsnLookupEntry))
  ((sortByKey (fun e => e.position) entries).take fan_out,
   found.map (fun n => Action.getRsnK node n))

/-- `LiraDfibSc.lookup_rsn_at_node` (lines 3217-3278): same neighbour
filtering, but every entry carries the literal position 0 and static cost 1
(lines 3253 and 3260). -/
def lookup_rsn_at_node_sc (view : DetourView) (st : RsnState) (node : Node)
    (ignore : List Node) (fan_out : Nat) : List RsnLookupEntry × List Action :=
  let ns := (view.neighbors node).filter (fun n => !(ignore.contains n))
  let ns2 := ns.filter (fun n => !(view.topoSources.contains n))
  let ns3 := ns2.filter (fun n => !(view.topoReceivers.contains n))
  let found := ns3.filter (fun n => st.hints node n)
  let entries := found.map (fun n =>
    ({ nexthop := n, position := 0, quota := 1 } : RsnLookupEntry))
  ((sortByKey (fun e => e.position) entries).take fan_out,
   found.map (fun n => Action.getRsnK node n))

/-- `controller.remove_rsn(node, key)`: delete the hint and return the new
state, or `none` when the key is absent (the `is_removed is None` case that
`invalidate_tr` turns into a `RuntimeError`). -/
def remove_rsn (st : RsnState) (node key : Node) : Option RsnState :=
  if st.hints node key then
    some { st with hints := fun a b => if a = node ∧ b = key then false else st.hints a b }
  else none

/-- The link-removal loop of `invalidate_tr` (`LiraDfibOph` lines 1704-1722,
`LiraDfibSc` lines 3281-3299, `Tfib_dc` lines 3615-3631): walk consecutive
trail pairs, skip nodes without an RSN table, remove the key for the next hop
at the current hop; a missing key aborts with `RuntimeError` (flag `false`). -/
def invalidateLinks (view : DetourView) :
    RsnState → List (Node × Node) → RsnState × Bool × List Action
  | st, [] => (st, true, [])
  | st, (curr, next) :: rest =>
    if view.has_rsn_table curr then
      match remove_rsn st curr next with
      | some st2 =>
        let r := invalidateLinks view st2 rest
        (r.1, r.2.1, Action.removeRsnK curr next :: r.2.2)
      | none => (st, false, [])
    else invalidateLinks view st rest

/-- `invalidate_tr(trail)`: invalidate every consecutive link of the trail. -/
def invalidate_tr (view : DetourView) (st : RsnState) (trail : List Node) :
    RsnState × Bool × List Action :=
  invalidateLinks view st (pathLinks trail)

/-- Result of the off-path trail walk (`while rsn_hop is not None`). -/
structure WalkResult where
  st : RsnState
  trail : List Node
  positions : List Nat
  serving : Option Node
  loopDetected : Bool
  invariantOk : Bool
  fuelOut : Bool
  acts : List Action

/-- The while-loop of `follow_offpath_trail`, shared verbatim between
`LiraDfibOph` (lines 1733-1763) and `LiraDfibSc` (lines 3310-3340): advance to
the hinted node; a repeated node is a loop (invalidate the recorded trail and
stop); otherwise append it, try `get_content` when it is the source or has a
cache, else consult its hint table (`lk`) with the previous hop ignored; an
empty lookup ends the walk as a dead end, which the `for`-`else` branch
invalidates.  `fuel` is instantiated with the number of network nodes. -/
def offpathWalk (view : DetourView)
    (lk : RsnState → Node → List Node → List RsnLookupEntry × List Action) :
    Nat → RsnState → Node → Node → Option Node → List Node → List Nat → WalkResult
  | _, st, _, _, none, trail, positions =>
    let r := invalidate_tr view st trail
    { st := r.1, trail := trail, positions := positions, serving := none,
      loopDetected := false, invariantOk := r.2.1, fuelOut := false, acts := r.2.2 }
  | 0, st, _, _, some _, trail, positions =>
    { st := st, trail := trail, positions := positions, serving := none,
      loopDetected := false, invariantOk := true, fuelOut := true, acts := [] }
  | fuel + 1, st, _, curr, some h, trail, positions =>
    let prev2 := curr
    let curr2 := h
    if curr2 ∈ trail then
      let r := invalidate_tr view st trail
      { st := r.1, trail := trail, positions := positions, serving := none,
        loopDetected := true, invariantOk := r.2.1, fuelOut := false, acts := r.2.2 }
    else
      let trail2 := trail ++ [curr2]
      let hitActs :=
        if curr2 = view.source ∨ view.hasCache curr2 then
          [Action.getContent curr2 (view.hasContent curr2)]
        else []
      if (curr2 = view.source ∨ view.hasCache curr2) ∧ view.hasContent curr2 then
        { st := st, trail := trail2, positions := positions, serving := some curr2,
          loopDetected := false, invariantOk := true, fuelOut := false, acts := hitActs }
      else
        match lk st curr2 [prev2] with
        | ([], lacts) =>
          let r := offpathWalk view lk fuel st prev2 curr2 none trail2 positions
          { r with acts := hitActs ++ lacts ++ r.acts }
        | (e :: _, lacts) =>
          let r := offpathWalk view lk fuel st prev2 curr2 (some e.nexthop) trail2
            (positions ++ [e.position])
          { r with acts := hitActs ++ lacts ++ r.acts }

/-- The post-walk quota phase of `LiraDfibOph.follow_offpath_trail`
(lines 1765-1782) and `Tfib_dc.follow_offpath_trail` (lines 3673-3682): for
each consulted position, paired with the trail node it was consulted at, apply
the AIMD update (`detour_quota_update`). -/
def quotaPhase (success : Bool) (inc : ℚ) :
    RsnState → List (Node × Nat) → RsnState
  | st, [] => st
  | st, (node, p) :: rest =>
    quotaPhase success inc
      { st with quota := fun a b =>
          if a = node ∧ b = p then detour_quota_update success inc (st.quota a b)
          else st.quota a b }
      rest

/-- Result of a full `follow_offpath_trail` call. -/
structure FollowResult where
  st : RsnState
  servingNode : Option Node
  off_path_trails : List (List Node)
  trail : List Node
  loopDetected : Bool
  invariantOk : Bool
  fuelOut : Bool
  acts : List Action

/-- `LiraDfibOph.follow_offpath_trail` (lines 1725-1793): run the walk, apply
the AIMD quota phase to the consulted `(trail node, position)` pairs, on
success append `(on-path prefix without its last node) ++ trail` to the
collected off-path trails, and report the outcome via
`controller.follow_trail(quota, success)`. -/
def follow_offpath_trail_oph (view : DetourView) (inc : ℚ) (fuel : Nat)
    (st : RsnState) (curr rsnHop : Node) (on_path_trail : List Node)
    (off_path_trails : List (List Node)) (position : Nat) (quotaArg : ℚ) :
    FollowResult :=
  let w := offpathWalk view (fun s n ig => lookup_rsn_at_node view s n ig 1)
    fuel st curr curr (some rsnHop) [curr] [position]
  let success := w.serving.isSome
  let st2 := quotaPhase success inc w.st (w.trail.zip w.positions)
  let trails2 :=
    if success then off_path_trails ++ [on_path_trail.dropLast ++ w.trail]
    else off_path_trails
  { st := st2, servingNode := w.serving, off_path_trails := trails2,
    trail := w.trail, loopDetected := w.loopDetected,
    invariantOk := w.invariantOk, fuelOut := w.fuelOut,
    acts := w.acts ++ [Action.followTrail quotaArg success] }

/-- `LiraDfibSc.follow_offpath_trail` (lines 3302-3371): identical walk, no
quota phase (the AIMD block is commented out, lines 3343-3361), and the
telemetry report carries the static cost 1 (lines 3366, 3369). -/
def follow_offpath_trail_sc (view : DetourView) (fuel : Nat) (st : RsnState)
    (curr rsnHop : Node) (on_path_trail : List Node)
    (off_path_trails : List (List Node)) (position : Nat) : FollowResult :=
  let w := offpathWalk view (fun s n ig => lookup_rsn_at_node_sc view s n ig 1)
    fuel st curr curr (some rsnHop) [curr] [position]
  let success := w.serving.isSome
  let trails2 :=
    if success then off_path_trails ++ [on_path_trail.dropLast ++ w.trail]
    else off_path_trails
  { st := w.st, servingNode := w.serving, off_path_trails := trails2,
    trail := w.trail, loopDetected := w.loopDetected,
    invariantOk := w.invariantOk, fuelOut := w.fuelOut,
    acts := w.acts ++ [Action.followTrail 1 success] }

/-! ## LiraDfibSc.process_event (strategy.py lines 3400-3529) -/

/-- Constructor parameters of `LiraDfibSc` (lines 3175-3200) used by
`process_event`. -/
structure ScParams where
  p : ℚ
  extra_quota : ℚ
  fan_out : Nat
  limit_replica : Bool

/-- Outcome of the forward phase of `LiraDfibSc.process_event`
(lines 3431-3465).  `lookups` records every node at which
`lookup_rsn_at_node` was invoked (a hint-table consultation), `err` flags the
Python error paths (`path[hop+1]` out of range, walk bookkeeping failures). -/
structure ScForwardResult where
  st : RsnState
  on_path_trail : List Node
  off_path_trails : List (List Node)
  serving : Option Node
  lookups : List Node
  acts : List Action
  err : Bool
  fuelOut : Bool

/-- The fan-out loop over the looked-up entries (lines 3449-3461): stop when
the remaining quota is spent; fetch `path[hop+1]` (an out-of-range access is a
Python `IndexError`, flagged in the last component); skip a hint that points
to the on-path nexthop; otherwise deduct the static cost and follow the
off-path trail.  Returns (state, remaining quota, off-path trails, actions,
error flag). -/
def scInnerLoop (view : DetourView) (wfuel : Nat) (path : List Node)
    (hop : Nat) (v : Node) (on_path_trail : List Node) :
    RsnState → ℚ → List (List Node) → List Action → List RsnLookupEntry →
    RsnState × ℚ × List (List Node) × List Action × Bool
  | st, rq, offt, acc, [] => (st, rq, offt, acc, false)
  | st, rq, offt, acc, e :: rest =>
    if rq ≤ 0 then (st, rq, offt, acc, false)
    else
      match path.get? (hop + 1) with
      | none => (st, rq, offt, acc, true)
      | some next_hop =>
        if e.nexthop = next_hop then
          scInnerLoop view wfuel path hop v on_path_trail st rq offt acc rest
        else
          let rq2 := rq - e.quota
          let fr := follow_offpath_trail_sc view wfuel st v e.nexthop
            on_path_trail offt e.position
          scInnerLoop view wfuel path hop v on_path_trail fr.st rq2
            fr.off_path_trails (acc ++ fr.acts) rest

/-- The on-path forward loop of `LiraDfibSc.process_event` (lines 3431-3465):
per hop, extend the on-path trail, try the cache, spend one quota unit, break
when the quota is spent away from the source, then consult the hint table and
run the fan-out loop; the `for`-`else` branch fetches the content from the
source.  `fuel` is instantiated with `path.length`. -/
def scForwardLoop (view : DetourView) (pa : ScParams) (path : List Node) :
    Nat → Nat → RsnState → ℚ → List Node → List (List Node) → List Node →
    List Action → Bool → ScForwardResult
  | 0, _, st, _, onpt, offt, lks, acc, err =>
    { st := st, on_path_trail := onpt, off_path_trails := offt, serving := none,
      lookups := lks, acts := acc, err := err, fuelOut := true }
  | fuel + 1, hop, st, rq, onpt, offt, lks, acc, err =>
    if hop < path.length then
      let u := path.getD (hop - 1) 0
      let v := path.getD hop 0
      let onpt2 := onpt ++ [v]
      if view.hasCache v ∧ view.hasContent v then
        { st := st, on_path_trail := onpt2, off_path_trails := offt,
          serving := some v, lookups := lks,
          acts := acc ++ [Action.getContent v true], err := err, fuelOut := false }
      else
        let acc2 := acc ++ (if view.hasCache v then [Action.getContent v false] else [])
        let rq2 := rq - 1
        if rq2 ≤ 0 ∧ v ≠ view.source then
          { st := st, on_path_trail := onpt2, off_path_trails := offt,
            serving := none, lookups := lks, acts := acc2, err := err, fuelOut := false }
        else
          let lkr := lookup_rsn_at_node_sc view st v [u] pa.fan_out
          let inr := scInnerLoop view view.nodes.length path hop v onpt2
            st rq2 offt (acc2 ++ lkr.2) lkr.1
          scForwardLoop view pa path fuel (hop + 1) inr.1 inr.2.1 onpt2 inr.2.2.1
            (lks ++ [v]) inr.2.2.2.1 (err || inr.2.2.2.2)
    else
      { st := st, on_path_trail := onpt, off_path_trails := offt,
        serving := some (path.getLastD 0), lookups := lks,
        acts := acc ++ [Action.getContent (path.getLastD 0) true], err := err,
        fuelOut := false }

/-- The collection iterated by the return phase (`LiraDfibOph` lines
1903-1906, `LiraDfibSc` lines 3469-3472, `Tfib_dc` lines 3797-3799):
`sorted_paths = sorted(off_path_trails, key=len)` and then, when an on-path
serving node exists, `sorted_paths.append(on_path_trail)` — the on-path trail
is appended after the sort. -/
def sortedReturnPaths (off_path_trails : List (List Node)) (servingFound : Bool)
    (on_path_trail : List Node) : List (List Node) :=
  sortByKey (fun t => t.length) off_path_trails ++
    (if servingFound then [on_path_trail] else [])

/-- The source-side per-trail return loop of `LiraDfibSc.process_event` with
`limit_replica` (lines 3487-3501), over the reversed trail: `hop` runs from 2
to `len(path)-2`; break at a hop whose previous node was already visited;
install the hint toward the user, maybe cache (note the source stores at
`prev_hop`, line 3499), and forward the content.  Returns (visited, draws,
actions). -/
def scReturnSrcLoop (view : DetourView) (p : ℚ) (path : List Node) :
    Nat → Nat → (Node → Bool) → List ℚ → List Action →
    (Node → Bool) × List ℚ × List Action
  | 0, _, visited, draws, acc => (visited, draws, acc)
  | fuel + 1, hop, visited, draws, acc =>
    if hop < path.length - 1 then
      let curr := path.getD hop 0
      let prev := path.getD (hop - 1) 0
      if visited prev then (visited, draws, acc)
      else
        let visited2 := fun n => if n = prev then true else visited n
        let acc2 := acc ++ [Action.putRsnK prev curr]
        let dr :=
          if view.hasCache curr then
            if p = 1 then (draws, acc2 ++ [Action.putContent prev])
            else if draws.headD 0 ≤ p then (draws.tail, acc2 ++ [Action.putContent prev])
            else (draws.tail, acc2)
          else (draws, acc2)
        scReturnSrcLoop view p path fuel (hop + 1) visited2 dr.1
          (dr.2 ++ [Action.forwardContentHop prev curr])
    else (visited, draws, acc)

/-- The cache-side per-trail return loop (lines 3505-3515), also the loop of
the non-`limit_replica` branch (lines 3517-3527, textually identical): `hop`
runs from 1 to `len(path)-2`, installing the hint toward the cache and
forwarding the content, with the same visited-break. -/
def scReturnCacheLoop (view : DetourView) (path : List Node) :
    Nat → Nat → (Node → Bool) → List Action → (Node → Bool) × List Action
  | 0, _, visited, acc => (visited, acc)
  | fuel + 1, hop, visited, acc =>
    if hop < path.length - 1 then
      let curr := path.getD hop 0
      let prev := path.getD (hop - 1) 0
      if visited prev then (visited, acc)
      else
        let visited2 := fun n => if n = prev then true else visited n
        scReturnCacheLoop view path fuel (hop + 1) visited2
          (acc ++ [Action.putRsnK curr prev, Action.forwardContentHop prev curr])
    else (visited, acc)

/-- The request hops issued for the first collected trail (lines 3476-3481). -/
def scRequestHops (path : List Node) : List Action :=
  (pathLinks path).map (fun q => Action.forwardRequestHop q.1 q.2)

/-- The return phase of `LiraDfibSc.process_event` (lines 3473-3527): iterate
the collected trails; only the first gets its request explicitly forwarded;
each trail is reversed and dispatched on `limit_replica` and on whether it
starts at the source. -/
def scReturnPhase (view : DetourView) (pa : ScParams) :
    List (List Node) → Bool → (Node → Bool) → List ℚ → List Action → List Action
  | [], _, _, _, acc => acc
  | pth :: rest, first, visited, draws, acc =>
    let acc2 := if first then acc else acc ++ scRequestHops pth
    let r := pth.reverse
    if pa.limit_replica then
      if r.getD 0 0 = view.source then
        let s := scReturnSrcLoop view pa.p r r.length 2 visited draws acc2
        scReturnPhase view pa rest true s.1 s.2.1 s.2.2
      else
        let s := scReturnCacheLoop view r r.length 1 visited acc2
        scReturnPhase view pa rest true s.1 draws s.2
    else
      let s := scReturnCacheLoop view r r.length 1 visited acc2
      scReturnPhase view pa rest true s.1 draws s.2

/-- Outcome of a full `LiraDfibSc.process_event`. -/
structure ScResult where
  st : RsnState
  sorted_paths : List (List Node)
  serving : Option Node
  off_path_trails : List (List Node)
  on_path_trail : List Node
  lookups : List Node
  acts : List Action
  err : Bool

/-- `LiraDfibSc.process_event` (lines 3400-3529): the request budget is
`len(path) - 1 + extra_quota`; run the forward phase, build the
`sorted_paths` collection, then run the return phase. -/
def scProcessEvent (view : DetourView) (pa : ScParams) (receiver : Node)
    (st : RsnState) (draws : List ℚ) : ScResult :=
  let path := view.shortest_path receiver view.source
  let rq : ℚ := (path.length : ℚ) - 1 + pa.extra_quota
  let f := scForwardLoop view pa path path.length 1 st rq [receiver] [] [] [] false
  let sp := sortedReturnPaths f.off_path_trails f.serving.isSome f.on_path_trail
  let acts := scReturnPhase view pa sp false (fun _ => false) draws f.acts
  { st := f.st, sorted_paths := sp, serving := f.serving,
    off_path_trails := f.off_path_trails, on_path_trail := f.on_path_trail,
    lookups := f.lookups, acts := acts, err := f.err || f.fuelOut }

/-- The `forwardRequestHop` actuations of a trace. -/
def requestHopActions (acts : List Action) : List Action :=
  acts.filter (fun a => match a with
    | Action.forwardRequestHop _ _ => true
    | _ => false)

/-- Modelled from the spec: plain shortest-path on-path forwarding of a
request (spec.md §4.2, the Edge/LCE walk) — the request walks the shortest
path toward the source and stops at the first cache hit, else at the source;
this is the reference behaviour named by the degenerate-fallback sentence. -/
def plainOnPathTrailAux (view : DetourView) : List Node → List Node
  | [] => []
  | v :: rest =>
    if view.hasCache v ∧ view.hasContent v then [v]
    else v :: plainOnPathTrailAux view rest

/-- Modelled from the spec: the node sequence visited by plain shortest-path
forwarding — the path prefix ending at the first cache hit after the
receiver, or the whole path when there is none. -/
def plainOnPathTrail (view : DetourView) (path : List Node) : List Node :=
  match path with
  | [] => []
  | r :: rest => r :: plainOnPathTrailAux view rest

/-! ## Concrete scenario instances -/

/-- A 3-node hint cycle (1 → 2 → 3 → 1) with no caches, used to exercise the
loop detection of `follow_offpath_trail`. -/
def cycleView : DetourView :=
  { nodes := [1, 2, 3]
    neighbors := fun n =>
      if n = 1 then [2, 3] else if n = 2 then [1, 3] else if n = 3 then [1, 2] else []
    topoSources := []
    topoReceivers := []
    hasCache := fun _ => false
    hasContent := fun _ => false
    has_rsn_table := fun _ => true
    shortest_path := fun _ _ => []
    source := 9
    rsnPosition := fun _ _ => 0 }

/-- Hint state of the 3-node cycle: hints 1 → 2, 2 → 3 and 3 → 1. -/
def cycleHints : RsnState :=
  { hints := fun a b =>
      decide ((a = 1 ∧ b = 2) ∨ (a = 2 ∧ b = 3) ∨ (a = 3 ∧ b = 1))
    quota := fun _ _ => 4 }

/-- The walk of the cycle scenario: `follow_offpath_trail` entered at on-path
node 1 with hinted nexthop 2, fuel = number of nodes. -/
def cycleFollow : FollowResult :=
  follow_offpath_trail_oph cycleView 1 3 cycleHints 1 2 [1] [] 0 4

/-- Line receiver 0 — 1 — 2 — 3 — source 4, with an off-path branch
1 — 5 — 6; caches holding the content at 2 and 6; hints 1 → 5 and 5 → 6.
A detour from node 1 succeeds with trail [0, 1, 5, 6] (length 4), then the
on-path walk hits the cache at 2, giving on-path trail [0, 1, 2] (length 3). -/
def branchView : DetourView :=
  { nodes := [0, 1, 2, 3, 4, 5, 6]
    neighbors := fun n =>
      if n = 0 then [1] else if n = 1 then [0, 2, 5] else if n = 2 then [1, 3]
      else if n = 3 then [2, 4] else if n = 4 then [3] else if n = 5 then [1, 6]
      else if n = 6 then [5] else []
    topoSources := [4]
    topoReceivers := [0]
    hasCache := fun n => decide (n = 2 ∨ n = 6)
    hasContent := fun n => decide (n = 2 ∨ n = 6 ∨ n = 4)
    has_rsn_table := fun _ => true
    shortest_path := fun a b => if a = 0 ∧ b = 4 then [0, 1, 2, 3, 4] else []
    source := 4
    rsnPosition := fun _ _ => 0 }

/-- Hint state of the branch scenario: hints 1 → 5 and 5 → 6. -/
def branchHints : RsnState :=
  { hints := fun a b => decide ((a = 1 ∧ b = 5) ∨ (a = 5 ∧ b = 6))
    quota := fun _ _ => 1 }

/-- Default `LiraDfibSc` parameters (line 3175). -/
def scDefaults : ScParams :=
  { p := 1, extra_quota := 3, fan_out := 1, limit_replica := true }

/-- The branch scenario processed by `LiraDfibSc.process_event`. -/
def branchRun : ScResult :=
  scProcessEvent branchView scDefaults 0 branchHints []

/-- Line receiver 0 — 1 — source 2 with an off-path cache 5 (holding the
content) hinted from node 1; used with `extra_quota = 0`. -/
def zeroQuotaView : DetourView :=
  { nodes := [0, 1, 2, 5]
    neighbors := fun n =>
      if n = 0 then [1] else if n = 1 then [0, 2, 5] else if n = 2 then [1]
      else if n = 5 then [1] else []
    topoSources := [2]
    topoReceivers := [0]
    hasCache := fun n => decide (n = 5)
    hasContent := fun n => decide (n = 5 ∨ n = 2)
    has_rsn_table := fun _ => true
    shortest_path := fun a b => if a = 0 ∧ b = 2 then [0, 1, 2] else []
    source := 2
    rsnPosition := fun _ _ => 0 }

/-- Hint state of the zero-quota scenario: a single hint 1 → 5. -/
def zeroQuotaHints : RsnState :=
  { hints := fun a b => decide (a = 1 ∧ b = 5)
    quota := fun _ _ => 1 }

/-- `LiraDfibSc` with `extra_quota = 0` on the zero-quota scenario. -/
def zeroQuotaRun : ScResult :=
  scProcessEvent zeroQuotaView { scDefaults with extra_quota := 0 } 0
    zeroQuotaHints []

/-- The all-empty hint state. -/
def emptyHints : RsnState :=
  { hints := fun _ _ => false, quota := fun _ _ => 1 }

/-- `LiraDfibSc` with `extra_quota = 0` and empty hint tables on the same
line topology (no off-path branch reachable). -/
def zeroQuotaEmptyRun : ScResult :=
  scProcessEvent zeroQuotaView { scDefaults with extra_quota := 0 } 0
    emptyHints []

/-- ProbCache view of a single-cache return path [2, 1, 0]: node 1 is the
only cache-capable node, with capacity 1. -/
def pcView : ProbCacheView :=
  { hasCache := fun n => decide (n = 1)
    cache_size := fun n => if n = 1 then some 1 else none }

/-- NRR_PROB view: source 2, line 2 — 1 — 0, content only at the source, a
capacity-1 cache at node 1. -/
def npView : NrrProbView :=
  { locations := [2]
    source := 2
    shortest_path := fun a b => if a = 0 ∧ b = 2 then [0, 1, 2] else []
    path_delay := fun _ => 0
    cache_size := fun n => if n = 1 then some 1 else none
    hasCache := fun n => decide (n = 1) }

/-- NRR view: replicas at 2 and 3, receiver 0, caches at 1 and 3. -/
def nrrDemoView : NrrView :=
  { locations := [2, 3]
    shortest_path := fun a b =>
      if a = 0 ∧ b = 2 then [0, 1, 2]
      else if a = 0 ∧ b = 3 then [0, 3] else []
    hasCache := fun n => decide (n = 1 ∨ n = 3)
    cacheHas := fun n => decide (n = 3) }

/-- Concrete `RsnEntry` for the freshest-except-node scenario: at time 10 the
excluded node 1 owns the first, freshest hint (age 0) and node 2 owns an
older but valid hint (age 5); neither is expired (TTL 100). -/
def freshestDemoEntry : RsnEntry :=
  { nexthops :=
      [{ nexthop := 1, destination := 1, distance := 1, time_stamp := 10,
         used_before := false },
       { nexthop := 2, destination := 2, distance := 2, time_stamp := 5,
         used_before := false }]
    fresh_interval := 100
    expiration_interval := 100 }

/-- The stored hint of the C10 scenario: nexthop 1, `used_before = true`. -/
def c10DemoHint : RsnNexthop :=
  { nexthop := 1, destination := 1, distance := 1, time_stamp := 0,
    used_before := true }

/-- Entry holding `c10DemoHint`, with both windows at 100. -/
def c10DemoEntry : RsnEntry :=
  { nexthops := [c10DemoHint], fresh_interval := 100, expiration_interval := 100 }

/-- Whether a trace contains a `putContent` actuation. -/
def containsPut (acts : List Action) : Bool :=
  acts.any (fun a => match a with
    | Action.putContent _ => true
    | _ => false)

/-- The nodes at which the empty-table forward walk performs a hint-table
lookup: every visited on-path node until (and excluding) the first cache hit;
companion of `plainOnPathTrailAux` for stating the consultation behaviour. -/
def plainLookupNodes (view : DetourView) : List Node → List Node
  | [] => []
  | v :: rest =>
    if view.hasCache v ∧ view.hasContent v then []
    else v :: plainLookupNodes view rest

/-! ## Helper lemmas on the stable sort -/

theorem insertByKey_perm {α : Type} (f : α → Nat) (a : α) (l : List α) :
    List.Perm (insertByKey f a l) (a :: l) := by
  induction l with
  | nil => simp [insertByKey]
  | cons b rest ih =>
    simp only [insertByKey]
    split
    · exact List.Perm.refl _
    · exact (ih.cons b).trans (List.Perm.swap a b rest)

theorem sortByKey_perm {α : Type} (f : α → Nat) (l : List α) :
    List.Perm (sortByKey f l) l := by
  induction l with
  | nil => simp [sortByKey]
  | cons a rest ih => exact (insertByKey_perm f a _).trans (ih.cons a)

theorem mem_sortByKey {α : Type} {f : α → Nat} {l : List α} {x : α} :
    x ∈ sortByKey f l ↔ x ∈ l :=
  (sortByKey_perm f l).mem_iff

theorem insertByKey_sorted {α : Type} (f : α → Nat) (a : α) {l : List α}
    (h : List.Sorted (fun x y => f x ≤ f y) l) :
    List.Sorted (fun x y => f x ≤ f y) (insertByKey f a l) := by
  induction l with
  | nil => simp [insertByKey]
  | cons b rest ih =>
    rw [List.sorted_cons] at h
    simp only [insertByKey]
    split
    · rename_i hab
      refine List.sorted_cons.2 ⟨?_, List.sorted_cons.2 h⟩
      intro x hx
      rcases List.mem_cons.1 hx with hx1 | hx2
      · exact hx1.symm ▸ hab
      · exact le_trans hab (h.1 x hx2)
    · rename_i hab
      refine List.sorted_cons.2 ⟨?_, ih h.2⟩
      intro x hx
      have hx2 : x ∈ a :: rest := (insertByKey_perm f a rest).mem_iff.1 hx
      rcases List.mem_cons.1 hx2 with hx1 | hx3
      · exact hx1.symm ▸ le_of_lt (lt_of_not_le hab)
      · exact h.1 x hx3

theorem sortByKey_sorted {α : Type} (f : α → Nat) (l : List α) :
    List.Sorted (fun x y => f x ≤ f y) (sortByKey f l) := by
  induction l with
  | nil => simp [sortByKey]
  | cons a rest ih => exact insertByKey_sorted f a ih

theorem sortByKey_head_min {α : Type} {f : α → Nat} {l : List α} {hd : α}
    {rest : List α} (h : sortByKey f l = hd :: rest) : ∀ x ∈ l, f hd ≤ f x := by
  intro x hx
  have hmem : x ∈ hd :: rest := h ▸ mem_sortByKey.2 hx
  have hs := sortByKey_sorted f l
  rw [h, List.sorted_cons] at hs
  rcases List.mem_cons.1 hmem with rfl | hx2
  · exact le_refl _
  · exact hs.1 x hx2

/-! ## C1: AIMD quota discipline -/

theorem apply_detour_outcomes_ge_one (inc : ℚ) (hinc : 0 ≤ inc) :
    ∀ (outs : List Bool) (q : ℚ), 1 ≤ q → 1 ≤ apply_detour_outcomes inc outs q := by
  intro outs
  induction outs with
  | nil => intro q hq; simpa [apply_detour_outcomes] using hq
  | cons o rest ih =>
    intro q hq
    have h1 : 1 ≤ detour_quota_update o inc q := by
      cases o
      · simp [detour_quota_update]
      · simp only [detour_quota_update, if_pos]
        linarith
    have : apply_detour_outcomes inc (o :: rest) q =
        apply_detour_outcomes inc rest (detour_quota_update o inc q) := rfl
    rw [this]
    exact ih _ h1

/-- **C1 counterexample**: at the floor value `Q = 1`, a failing detour leaves
the quota at `max(1, 1/2) = 1`, so a sequence of only-failing detours does not
strictly decrease the quota as the claim states. -/
theorem c1_counterexample_fixed_point :
    detour_quota_update false 1 1 = 1 ∧ ¬ detour_quota_update false 1 1 < 1 := by
  have h : detour_quota_update false 1 1 = 1 := by
    rw [detour_quota_update]
    norm_num
  exact ⟨h, by rw [h]; exact lt_irrefl 1⟩

/-- **C1 (amended)**: in the dynamic-cost detour strategies (LIRA_DFIB_OPH,
TFIB_DC), a failing detour halves the consulted position's quota with floor 1
— strictly decreasing it whenever it exceeds 1 and leaving it unchanged at the
floor — a successful detour adds `quota_increment` (a strict increase whenever
the increment is positive), and any sequence of detour outcomes keeps every
quota value at least 1. -/
theorem c1_aimd_quota_amended (q inc : ℚ) (hq : 1 ≤ q) (hinc : 0 ≤ inc) :
    (1 < q → detour_quota_update false inc q < q) ∧
    1 ≤ detour_quota_update false inc q ∧
    (0 < inc → q < detour_quota_update true inc q) ∧
    detour_quota_update true inc q = q + inc ∧
    ∀ outs : List Bool, 1 ≤ apply_detour_outcomes inc outs q := by
  refine ⟨?_, ?_, ?_, ?_, fun outs => apply_detour_outcomes_ge_one inc hinc outs q hq⟩
  · intro h1
    have h2 : q / 2 < q := by linarith
    simpa [detour_quota_update] using max_lt h1 h2
  · simp [detour_quota_update]
  · intro h
    simp only [detour_quota_update, if_pos]
    linarith
  · simp [detour_quota_update]

/-- Witness for C1: the amended facts instantiated at quota 4, increment 1 and
the outcome sequence [fail, success, fail]. -/
theorem c1_aimd_quota_amended_witness :
    1 ≤ apply_detour_outcomes 1 [false, true, false] 4 :=
  (c1_aimd_quota_amended 4 1 (by norm_num) (by norm_num)).2.2.2.2
    [false, true, false]

/-! ## C5: get_freshest_except_node -/

/-- **C5 (code bug)**: evaluating `get_freshest_except_node` at time 10 with
excluded node 1 on `freshestDemoEntry` returns `None`, although the entry
still holds the non-expired hint with nexthop 2 — the fold seeds `freshest`
with the excluded node's hint (line 284 only guards the replacement step) and
the final fixup (lines 287-288) then discards it, contradicting the method's
own docstring (and the spec sentence) that the freshest non-excluded,
non-stale hint is returned. -/
theorem c5_freshest_excluded_bug :
    (freshestDemoEntry.get_freshest_except_node 10 1).2 = none ∧
    ((freshestDemoEntry.get_freshest_except_node 10 1).1.nexthops.filter
      (fun nh => !(nh.nexthop == 1))).length = 1 ∧
    ∀ nh ∈ (freshestDemoEntry.get_freshest_except_node 10 1).1.nexthops,
      nh.is_expired 10 100 = false := by
  norm_num [freshestDemoEntry, RsnEntry.get_freshest_except_node, pruneExpired,
    RsnNexthop.is_expired, RsnNexthop.age]

/-! ## C8: NRR_PROB forced placement -/

/-- **C8 (code bug)**: on the 2-hop source-served path of `npView` with a draw
that fails the probabilistic test, `NearestReplicaRoutingProb.process_event`
issues no `put_content` at all: the "force put if it is last hop" branch
(lines 1060-1062) sits inside the guard `v != receiver and v in
self.cache_size`, which is false at the final hop (where `v` is the
receiver), so the documented forced placement never runs — and its body would
raise a `NameError` on the unbound `curr_hop` if it ever did. -/
theorem c8_forced_placement_never_runs :
    nrrProbProcessEvent npView 100 0 [1 / 2] =
      Except.ok [Action.forwardRequestPath 0 2, Action.getContent 2 true,
        Action.forwardContentHop 2 1, Action.forwardContentHop 1 0] ∧
    containsPut [Action.forwardRequestPath 0 2, Action.getContent 2 true,
        Action.forwardContentHop 2 1, Action.forwardContentHop 1 0] = false := by
  constructor
  · norm_num [nrrProbProcessEvent, npView, nrrProbReturnLoop, pathLinks, pyMinBy,
      removeFirst, List.filterMap_cons, List.sum_cons, List.sum_nil]
  · rfl

/-! ## C9: NRR metacaching validation -/

/-- **C9 (confirmed)**: `NearestReplicaRouting.__init__` accepts exactly the
metacaching strings LCE and LCD (raising `ValueError` otherwise, at
construction), and for either accepted mode `process_event` never reaches its
metacaching `ValueError` branch. -/
theorem c9_metacaching_validation :
    (∀ m : String, isOkB (nrrInit m) = true ↔ (m = "LCE" ∨ m = "LCD")) ∧
    ∀ (view : NrrView) (m : String) (receiver : Node),
      (m = "LCE" ∨ m = "LCD") →
      isOkB (nrrProcessEvent view m receiver) = true := by
  constructor
  · intro m
    by_cases h : m = "LCE" ∨ m = "LCD"
    · simp [nrrInit, h, isOkB]
    · simp [nrrInit, h, isOkB]
  · rintro view m receiver (rfl | rfl)
    · unfold nrrProcessEvent
      split
      · simp [isOkB]
      · split
        · simp [isOkB]
        · rename_i h1 h2
          exact absurd rfl h1
    · unfold nrrProcessEvent
      split
      · simp [isOkB]
      · split
        · simp [isOkB]
        · rename_i h1 h2
          exact absurd rfl h2

/-- Witness for C9: the LCD mode on the concrete NRR view processes the event
without any metacaching error. -/
theorem c9_metacaching_validation_witness :
    isOkB (nrrProcessEvent nrrDemoView "LCD" 0) = true :=
  c9_metacaching_validation.2 nrrDemoView "LCD" 0 (Or.inr rfl)

/-! ## C6 and C10: insert_nexthop -/

theorem hintKeys_updateFirst (n d : Node) (dist : Nat) (t : Time) (b : Bool) :
    ∀ {l l2 : List RsnNexthop} {r : RsnNexthop},
    updateFirstNexthop n d dist t b l = some (l2, r) → hintKeys l2 = hintKeys l := by
  intro l
  induction l with
  | nil => intro l2 r h; simp [updateFirstNexthop] at h
  | cons nh rest ih =>
    intro l2 r h
    rw [updateFirstNexthop] at h
    split at h
    · rw [Option.some.injEq, Prod.mk.injEq] at h
      obtain ⟨h1, _⟩ := h
      subst h1
      simp [hintKeys]
    · revert h
      split
      · rename_i rest2 r2 heq
        intro h
        rw [Option.some.injEq, Prod.mk.injEq] at h
        obtain ⟨h1, _⟩ := h
        subst h1
        simp only [hintKeys, List.map_cons]
        rw [show List.map (fun nh => nh.nexthop) rest2 = hintKeys rest2 from rfl,
          show List.map (fun nh : RsnNexthop => nh.nexthop) rest = hintKeys rest from rfl,
          ih heq]
      · intro h
        exact absurd h (by simp)

theorem updateFirst_none_not_mem (n d : Node) (dist : Nat) (t : Time) (b : Bool) :
    ∀ {l : List RsnNexthop},
    updateFirstNexthop n d dist t b l = none → n ∉ hintKeys l := by
  intro l
  induction l with
  | nil => intro _ _; simp [hintKeys] at *
  | cons nh rest ih =>
    intro h hmem
    rw [updateFirstNexthop] at h
    split at h
    · exact absurd h (by simp)
    · rename_i hne
      revert h
      split
      · intro h; exact absurd h (by simp)
      · rename_i heq
        intro _
        rcases List.mem_cons.1 hmem with h1 | h2
        · exact hne h1.symm
        · exact ih heq h2

theorem hintKeys_prune_sublist (l : List RsnNexthop) (t ei : Time) :
    List.Sublist (hintKeys (pruneExpired l t ei)) (hintKeys l) := by
  unfold hintKeys pruneExpired
  exact List.Sublist.map _ (List.filter_sublist l)

theorem insert_nexthop_nodup (e : RsnEntry) (n d : Node) (dist : Nat) (t : Time)
    (b : Bool) (h : (hintKeys e.nexthops).Nodup) :
    (hintKeys (e.insert_nexthop n d dist t b).1.nexthops).Nodup := by
  have hp : (hintKeys (pruneExpired e.nexthops t e.expiration_interval)).Nodup :=
    (hintKeys_prune_sublist e.nexthops t e.expiration_interval).nodup h
  rw [RsnEntry.insert_nexthop]
  split
  · rename_i l r heq
    simpa [hintKeys_updateFirst n d dist t b heq] using hp
  · rename_i heq
    have hnot := updateFirst_none_not_mem n d dist t b heq
    simp only [hintKeys, List.map_append, List.map_cons, List.map_nil]
    rw [List.nodup_append]
    exact ⟨hp, List.nodup_singleton n, by
      intro a ha hb
      simp only [List.mem_singleton] at hb
      subst hb
      exact hnot ha⟩

theorem applyInserts_nodup : ∀ (ops : List InsertOp) (e : RsnEntry),
    (hintKeys e.nexthops).Nodup → (hintKeys (applyInserts e ops).nexthops).Nodup := by
  intro ops
  induction ops with
  | nil => intro e h; simpa [applyInserts] using h
  | cons op rest ih =>
    intro e h
    exact ih _ (insert_nexthop_nodup e op.nexthop op.dest op.distance op.time op.isUsed h)

/-- **C6 (confirmed)**: starting from any `RsnEntry` without duplicate nexthop
keys (in particular the freshly-constructed empty entry), any sequence of
`insert_nexthop` calls preserves the no-duplicate invariant — re-insertion of
a present nexthop updates the existing hint in place instead of appending. -/
theorem c6_no_duplicate_nexthops (e : RsnEntry) (ops : List InsertOp)
    (h : (hintKeys e.nexthops).Nodup) :
    (hintKeys (applyInserts e ops).nexthops).Nodup :=
  applyInserts_nodup ops e h

/-- Witness for C6: three inserts (two of them with the same nexthop 1) on a
freshly constructed entry leave the keys duplicate-free. -/
theorem c6_no_duplicate_nexthops_witness :
    (hintKeys (applyInserts (RsnEntry.init 100 100)
      [{ nexthop := 1, dest := 1, distance := 1, time := 0, isUsed := false },
       { nexthop := 1, dest := 2, distance := 3, time := 1, isUsed := true },
       { nexthop := 2, dest := 2, distance := 2, time := 1, isUsed := false }]).nexthops).Nodup :=
  c6_no_duplicate_nexthops (RsnEntry.init 100 100) _ (by simp [RsnEntry.init, hintKeys])

theorem updateFirst_of_find? (n d : Node) (dist : Nat) (t : Time) (b : Bool) :
    ∀ {l : List RsnNexthop} {nh0 : RsnNexthop},
    l.find? (fun x => x.nexthop == n) = some nh0 →
    ∃ l2, updateFirstNexthop n d dist t b l = some (l2,
      { nh0 with
        time_stamp := t, destination := d, distance := dist, py_is_used := some b }) := by
  intro l
  induction l with
  | nil => intro nh0 h; simp at h
  | cons nh rest ih =>
    intro nh0 h
    by_cases hc : nh.nexthop = n
    · rw [List.find?_cons_of_pos _ (by simpa using hc)] at h
      rw [Option.some.injEq] at h
      subst h
      exact ⟨_, by rw [updateFirstNexthop, if_pos hc]⟩
    · rw [List.find?_cons_of_neg _ (by simpa using hc)] at h
      obtain ⟨l2, hl2⟩ := ih h
      exact ⟨nh :: l2, by rw [updateFirstNexthop, if_neg hc, hl2]⟩

/-- **C10 (confirmed)**: when `insert_nexthop` hits a nexthop already present
(after pruning), only `time_stamp`, `destination` and `distance` are updated;
the `used_before` flag is untouched — line 207 binds the separate shadow
attribute `is_used` instead — so `is_used()` (which reads `used_before`) and
`is_used_and_fresh` still reflect the flag value from before the update. -/
theorem c10_update_preserves_used_flag (e : RsnEntry) (n d : Node) (dist : Nat)
    (t : Time) (b : Bool) (nh0 : RsnNexthop)
    (hfind : (pruneExpired e.nexthops t e.expiration_interval).find?
      (fun x => x.nexthop == n) = some nh0) (now fr : Time) :
    (e.insert_nexthop n d dist t b).2.used_before = nh0.used_before ∧
    (e.insert_nexthop n d dist t b).2.is_used = nh0.is_used ∧
    (e.insert_nexthop n d dist t b).2.py_is_used = some b ∧
    (e.insert_nexthop n d dist t b).2.time_stamp = t ∧
    (e.insert_nexthop n d dist t b).2.destination = d ∧
    (e.insert_nexthop n d dist t b).2.distance = dist ∧
    (e.insert_nexthop n d dist t b).2.is_used_and_fresh now fr =
      (nh0.used_before && decide (now - t ≤ fr)) := by
  obtain ⟨l2, hupd⟩ := updateFirst_of_find? n d dist t b hfind
  rw [RsnEntry.insert_nexthop, hupd]
  simp [RsnNexthop.is_used, RsnNexthop.is_used_and_fresh]

/-- Concrete entry for the C10 witness: one unexpired hint with nexthop 1 and
`used_before = true`. -/
theorem c10_update_preserves_used_flag_witness :
    (c10DemoEntry.insert_nexthop 1 7 9 1 false).2.used_before = true := by
  have h := c10_update_preserves_used_flag c10DemoEntry 1 7 9 1 false c10DemoHint
    (by norm_num [c10DemoEntry, c10DemoHint, pruneExpired, RsnNexthop.is_expired]) 1 1
  rw [h.1]
  rfl

/-! ## C7: the ProbCache placement law -/

theorem count_take_succ (p : Node → Bool) (path : List Node) (hop : Nat)
    (h1 : 1 ≤ hop) (h : hop < path.length) :
    (((path.take (hop + 1)).drop 1).filter p).length =
    (((path.take hop).drop 1).filter p).length +
      (if p (path.getD hop 0) then 1 else 0) := by
  rw [List.take_succ]
  have hv : path[hop]? = some (path.getD hop 0) := by
    rw [List.getD_eq_getElem?_getD]
    cases hx : path[hop]? with
    | none => rw [List.getElem?_eq_none_iff] at hx; omega
    | some v => simp
  rw [hv]
  have hlen : 1 ≤ (path.take hop).length := by
    rw [List.length_take]
    omega
  rw [List.drop_append_of_le_length hlen, List.filter_append, List.length_append]
  have hone : ∀ w : Node, (List.filter p (some w).toList).length =
      if p w then 1 else 0 := by
    intro w
    by_cases hp : p w
    · rw [if_pos hp]
      simp [hp]
    · rw [if_neg hp]
      simp [hp]
  rw [hone]

theorem probCacheLoop_prob_spec (view : ProbCacheView) (t_tw : ℚ) (receiver : Node)
    (path : List Node)
    (hcons : ∀ n, view.hasCache n = (view.cache_size n).isSome) :
    ∀ (fuel hop : Nat) (x : ℚ) (draws : List ℚ) (i : Nat) (step : PlacementStep),
      1 ≤ hop →
      x = ((((path.take hop).drop 1).filter
        (fun n => (view.cache_size n).isSome)).length : ℚ) →
      (probCacheLoop view t_tw receiver path (probCacheC view path) fuel hop x
        draws).get? i = some step →
      ∀ P, step.prob = some P →
        P = probCacheSpecLaw view t_tw path (hop + i) ∧
        ∃ d, step.draw = some d ∧ step.cached = decide (d < P) := by
  have hc : probCacheC view path =
      (path.filter (fun n => (view.cache_size n).isSome)).length := by
    unfold probCacheC
    rw [List.filter_congr]
    intro n _
    exact hcons n
  intro fuel
  induction fuel with
  | zero => intro hop x draws i step _ _ hget; rw [probCacheLoop] at hget; simp at hget
  | succ fuel ih =>
    intro hop x draws i step hhop hx hget
    simp only [probCacheLoop] at hget
    by_cases hin : hop < path.length
    · rw [if_pos hin] at hget
      have hx2 : (if (view.cache_size (path.getD hop 0)).isSome then x + 1 else x) =
          ((((path.take (hop + 1)).drop 1).filter
            (fun n => (view.cache_size n).isSome)).length : ℚ) := by
        rw [count_take_succ (fun n => (view.cache_size n).isSome) path hop hhop hin]
        push_cast
        rw [hx]
        split <;> rename_i hsplit <;> simp [hsplit]
      by_cases hguard : path.getD hop 0 ≠ receiver ∧
          (view.cache_size (path.getD hop 0)).isSome = true
      · rw [if_pos hguard] at hget
        cases i with
        | zero =>
          rw [List.get?_cons_zero, Option.some.injEq] at hget
          subst hget
          intro P hP
          simp only [Option.some.injEq] at hP
          subst hP
          constructor
          · simp only [probCacheSpecLaw, probCacheN, Nat.add_zero]
            rw [hc, ← hx2]
          · exact ⟨draws.headD 0, rfl, rfl⟩
        | succ j =>
          rw [List.get?_cons_succ] at hget
          have := ih (hop + 1) _ draws.tail j step (by omega) hx2 hget
          intro P hP
          have h2 := this P hP
          rw [show hop + 1 + j = hop + (j + 1) by omega] at h2
          exact h2
      · rw [if_neg hguard] at hget
        cases i with
        | zero =>
          rw [List.get?_cons_zero, Option.some.injEq] at hget
          subst hget
          intro P hP
          simp at hP
        | succ j =>
          rw [List.get?_cons_succ] at hget
          have := ih (hop + 1) _ draws j step (by omega) hx2 hget
          intro P hP
          have h2 := this P hP
          rw [show hop + 1 + j = hop + (j + 1) by omega] at h2
          exact h2
    · rw [if_neg hin] at hget
      simp at hget

/-- **C7 (confirmed)**: every probability computed by the ProbCache return
phase equals the spec law `P = (N / (t_tw * capacity(v))) * (x/c)^c` with `c`
the capable-node count of the whole return path, `x` the running capable-node
count including the current node, and `N` the capacity sum from the current
hop to the path end; content is cached iff the uniform draw is strictly below
`P`; and on the single-cache path [2,1,0] with `t_tw = 10`, capacity 1 and a
forced draw of 0, the probability evaluates to 1/10 > 0 and placement
occurs. -/
theorem c7_probcache_law :
    (∀ (view : ProbCacheView) (t_tw : ℚ) (receiver : Node) (path : List Node)
      (draws : List ℚ) (i : Nat) (step : PlacementStep),
      (∀ n, view.hasCache n = (view.cache_size n).isSome) →
      (probCacheReturnPhase view t_tw receiver path draws).get? i = some step →
      ∀ P, step.prob = some P →
        P = probCacheSpecLaw view t_tw path (1 + i) ∧
        ∃ d, step.draw = some d ∧ step.cached = decide (d < P)) ∧
    (probCacheReturnPhase pcView 10 0 [2, 1, 0] [0] =
      [{ u := 2, v := 1, prob := some (1 / 10), draw := some 0, cached := true },
       { u := 1, v := 0, prob := none, draw := none, cached := false }] ∧
      (0 : ℚ) < 1 / 10) := by
  constructor
  · intro view t_tw receiver path draws i step hcons hget P hP
    exact probCacheLoop_prob_spec view t_tw receiver path hcons path.length 1 0
      draws i step (le_refl 1) (by cases path <;> simp) hget P hP
  · constructor
    · norm_num [probCacheReturnPhase, probCacheLoop, probCacheC, probCacheN, pcView,
        List.filterMap_cons, List.sum_cons, List.sum_nil]
    · norm_num

/-- Witness for C7: the law instantiated on the single-cache demo path at the
step computed for node 1. -/
theorem c7_probcache_law_witness :
    (1 / 10 : ℚ) = probCacheSpecLaw pcView 10 [2, 1, 0] (1 + 0) ∧
    ∃ d, some (0 : ℚ) = some d ∧ true = decide (d < (1 / 10 : ℚ)) := by
  have hcons : ∀ n, pcView.hasCache n = (pcView.cache_size n).isSome := by
    intro n
    by_cases h : n = 1 <;> simp [pcView, h]
  have hget : (probCacheReturnPhase pcView 10 0 [2, 1, 0] [0]).get? 0 =
      some { u := 2, v := 1, prob := some (1 / 10), draw := some 0, cached := true } := by
    rw [c7_probcache_law.2.1]
    rfl
  exact c7_probcache_law.1 pcView 10 0 [2, 1, 0] [0] 0
    { u := 2, v := 1, prob := some (1 / 10), draw := some 0, cached := true }
    hcons hget (1 / 10) rfl

/-! ## C3: off-path walk termination and trail invalidation -/

theorem pathLinks_map_fst : ∀ trail : List Node,
    (pathLinks trail).map Prod.fst = trail.dropLast := by
  intro trail
  induction trail with
  | nil => rfl
  | cons a rest ih =>
    cases rest with
    | nil => rfl
    | cons b rest2 =>
      have h1 : pathLinks (a :: b :: rest2) = (a, b) :: pathLinks (b :: rest2) := rfl
      rw [h1, List.map_cons, ih]
      rfl

theorem pathLinks_concat : ∀ (trail : List Node) (c h : Node),
    trail.getLast? = some c →
    pathLinks (trail ++ [h]) = pathLinks trail ++ [(c, h)] := by
  intro trail
  induction trail with
  | nil => intro c h hc; simp at hc
  | cons a rest ih =>
    intro c h hc
    cases rest with
    | nil =>
      simp only [List.getLast?_singleton, Option.some.injEq] at hc
      subst hc
      rfl
    | cons b rest2 =>
      have hc2 : (b :: rest2).getLast? = some c := by
        rwa [List.getLast?_cons_cons] at hc
      show (a, b) :: pathLinks ((b :: rest2) ++ [h]) =
        ((a, b) :: pathLinks (b :: rest2)) ++ [(c, h)]
      rw [ih c h hc2]
      rfl

theorem remove_rsn_some (st : RsnState) (node key : Node)
    (h : st.hints node key = true) :
    remove_rsn st node key = some
      { st with hints := fun a b => if a = node ∧ b = key then false else st.hints a b } := by
  unfold remove_rsn
  rw [if_pos h]

theorem remove_rsn_hints (st : RsnState) (node key : Node) (st2 : RsnState)
    (h : remove_rsn st node key = some st2) :
    (∀ a b, st2.hints a b = true → st.hints a b = true) ∧
    st2.hints node key = false := by
  unfold remove_rsn at h
  split at h
  · rw [Option.some.injEq] at h
    subst h
    constructor
    · intro a b hb
      by_cases hab : a = node ∧ b = key
      · rw [show ({ st with hints := fun a b =>
            if a = node ∧ b = key then false else st.hints a b } : RsnState).hints a b =
            (if a = node ∧ b = key then false else st.hints a b) from rfl,
          if_pos hab] at hb
        exact absurd hb (by simp)
      · rwa [show ({ st with hints := fun a b =>
            if a = node ∧ b = key then false else st.hints a b } : RsnState).hints a b =
            (if a = node ∧ b = key then false else st.hints a b) from rfl,
          if_neg hab] at hb
    · simp
  · exact absurd h (by simp)

theorem invalidateLinks_hints_le (view : DetourView) :
    ∀ (links : List (Node × Node)) (st : RsnState) (a b : Node),
      (invalidateLinks view st links).1.hints a b = true → st.hints a b = true := by
  intro links
  induction links with
  | nil => intro st a b h; exact h
  | cons q rest ih =>
    obtain ⟨c, n⟩ := q
    intro st a b h
    simp only [invalidateLinks] at h
    by_cases hta : view.has_rsn_table c = true
    · rw [if_pos hta] at h
      cases hrem : remove_rsn st c n with
      | none => rw [hrem] at h; exact h
      | some st2 =>
        rw [hrem] at h
        exact (remove_rsn_hints st c n st2 hrem).1 a b (ih st2 a b h)
    · rw [if_neg hta] at h
      exact ih st a b h

theorem invalidateLinks_false_stays (view : DetourView) (links : List (Node × Node))
    (st : RsnState) (a b : Node) (h : st.hints a b = false) :
    (invalidateLinks view st links).1.hints a b = false := by
  cases hfin : (invalidateLinks view st links).1.hints a b with
  | false => rfl
  | true =>
    exact absurd (invalidateLinks_hints_le view links st a b hfin) (by rw [h]; simp)

theorem invalidateLinks_removes (view : DetourView) :
    ∀ (links : List (Node × Node)) (st : RsnState),
      (∀ q ∈ links, st.hints q.1 q.2 = true) →
      (links.map Prod.fst).Nodup →
      (invalidateLinks view st links).2.1 = true ∧
      ∀ q ∈ links, view.has_rsn_table q.1 = true →
        (invalidateLinks view st links).1.hints q.1 q.2 = false := by
  intro links
  induction links with
  | nil =>
    intro st _ _
    exact ⟨rfl, by intro q hq; simp at hq⟩
  | cons q rest ih =>
    obtain ⟨c, n⟩ := q
    intro st hall hnodup
    have hcn : st.hints c n = true := hall (c, n) (List.mem_cons_self _ _)
    rw [List.map_cons, List.nodup_cons] at hnodup
    by_cases hta : view.has_rsn_table c = true
    · have hrem := remove_rsn_some st c n hcn
      have hall2 : ∀ p ∈ rest, ({ st with hints := fun a b =>
          if a = c ∧ b = n then false else st.hints a b } : RsnState).hints p.1 p.2 = true := by
        intro p hp
        have hne : p.1 ≠ c := by
          intro hEq
          refine hnodup.1 ?_
          rw [← hEq]
          exact List.mem_map.2 ⟨p, hp, rfl⟩
        show (if p.1 = c ∧ p.2 = n then false else st.hints p.1 p.2) = true
        rw [if_neg (by intro hand; exact hne hand.1)]
        exact hall p (List.mem_cons_of_mem _ hp)
      have hih := ih _ hall2 hnodup.2
      constructor
      · simp only [invalidateLinks]
        rw [if_pos hta, hrem]
        exact hih.1
      · intro p hp hpta
        rcases List.mem_cons.1 hp with h1 | h2
        · subst h1
          simp only [invalidateLinks]
          rw [if_pos hta, hrem]
          exact invalidateLinks_false_stays view rest _ c n (by exact if_pos ⟨rfl, rfl⟩)
        · simp only [invalidateLinks]
          rw [if_pos hta, hrem]
          exact hih.2 p h2 hpta
    · simp only [invalidateLinks]
      rw [if_neg hta]
      have hall2 : ∀ p ∈ rest, st.hints p.1 p.2 = true := fun p hp =>
        hall p (List.mem_cons_of_mem _ hp)
      have hih := ih st hall2 hnodup.2
      constructor
      · exact hih.1
      · intro p hp hpta
        rcases List.mem_cons.1 hp with h1 | h2
        · subst h1
          exact absurd hpta hta
        · exact hih.2 p h2 hpta

theorem lookup_rsn_entry_mem (view : DetourView) (st : RsnState) (node : Node)
    (ignore : List Node) (k : Nat) :
    ∀ e ∈ (lookup_rsn_at_node view st node ignore k).1,
      st.hints node e.nexthop = true ∧ e.nexthop ∈ view.neighbors node := by
  intro e he
  simp only [lookup_rsn_at_node] at he
  have he2 := List.mem_of_mem_take he
  rw [mem_sortByKey] at he2
  obtain ⟨n, hn, hEq⟩ := List.mem_map.1 he2
  rw [List.mem_filter] at hn
  obtain ⟨hn3, hhint⟩ := hn
  rw [List.mem_filter] at hn3
  obtain ⟨hn2, _⟩ := hn3
  rw [List.mem_filter] at hn2
  obtain ⟨hn1, _⟩ := hn2
  rw [List.mem_filter] at hn1
  obtain ⟨hnb, _⟩ := hn1
  rw [← hEq]
  exact ⟨hhint, hnb⟩

theorem offpathWalk_spec (view : DetourView)
    (lk : RsnState → Node → List Node → List RsnLookupEntry × List Action)
    (hlk : ∀ (st : RsnState) (node : Node) (ig : List Node),
      ∀ e ∈ (lk st node ig).1, st.hints node e.nexthop = true ∧ e.nexthop ∈ view.nodes) :
    ∀ (fuel : Nat) (st : RsnState) (prev curr : Node) (rsnHop : Option Node)
      (trail : List Node) (positions : List Nat),
      trail.Nodup → (∀ a ∈ trail, a ∈ view.nodes) →
      trail.getLast? = some curr →
      (∀ q ∈ pathLinks trail, st.hints q.1 q.2 = true) →
      (∀ h, rsnHop = some h → st.hints curr h = true ∧ h ∈ view.nodes) →
      view.nodes.length + 1 ≤ fuel + trail.length →
      (offpathWalk view lk fuel st prev curr rsnHop trail positions).fuelOut = false ∧
      (offpathWalk view lk fuel st prev curr rsnHop trail positions).invariantOk = true ∧
      ((offpathWalk view lk fuel st prev curr rsnHop trail positions).serving = none →
        ∀ q ∈ pathLinks (offpathWalk view lk fuel st prev curr rsnHop trail positions).trail,
          view.has_rsn_table q.1 = true →
          (offpathWalk view lk fuel st prev curr rsnHop trail
            positions).st.hints q.1 q.2 = false) := by
  have invalidCase : ∀ (st : RsnState) (trail : List Node),
      trail.Nodup →
      (∀ q ∈ pathLinks trail, st.hints q.1 q.2 = true) →
      (invalidate_tr view st trail).2.1 = true ∧
      ∀ q ∈ pathLinks trail, view.has_rsn_table q.1 = true →
        (invalidate_tr view st trail).1.hints q.1 q.2 = false := by
    intro st trail hnd hlinks
    have hnd2 : ((pathLinks trail).map Prod.fst).Nodup := by
      rw [pathLinks_map_fst]
      exact hnd.sublist (List.dropLast_sublist trail)
    exact invalidateLinks_removes view (pathLinks trail) st hlinks hnd2
  intro fuel
  induction fuel with
  | zero =>
    intro st prev curr rsnHop trail positions hnd hsub hlast hlinks hhop hbound
    cases rsnHop with
    | none =>
      have hi := invalidCase st trail hnd hlinks
      exact ⟨rfl, hi.1, fun _ => hi.2⟩
    | some h =>
      exfalso
      have hlen : trail.length ≤ view.nodes.length :=
        (hnd.subperm hsub).length_le
      omega
  | succ fuel ih =>
    intro st prev curr rsnHop trail positions hnd hsub hlast hlinks hhop hbound
    cases rsnHop with
    | none =>
      have hi := invalidCase st trail hnd hlinks
      exact ⟨rfl, hi.1, fun _ => hi.2⟩
    | some h =>
      simp only [offpathWalk]
      by_cases hmem : h ∈ trail
      · rw [if_pos hmem]
        have hi := invalidCase st trail hnd hlinks
        exact ⟨rfl, hi.1, fun _ => hi.2⟩
      · rw [if_neg hmem]
        have hh := hhop h rfl
        have hnd2 : (trail ++ [h]).Nodup := by
          rw [List.nodup_append]
          exact ⟨hnd, List.nodup_singleton h, fun a ha hb =>
            hmem (by rwa [List.mem_singleton.1 hb] at ha)⟩
        have hsub2 : ∀ a ∈ trail ++ [h], a ∈ view.nodes := by
          intro a ha
          rcases List.mem_append.1 ha with h1 | h2
          · exact hsub a h1
          · rw [List.mem_singleton.1 h2]
            exact hh.2
        have hlast2 : (trail ++ [h]).getLast? = some h := by
          rw [List.getLast?_concat]
        have hlinks2 : ∀ q ∈ pathLinks (trail ++ [h]), st.hints q.1 q.2 = true := by
          rw [pathLinks_concat trail curr h hlast]
          intro q hq
          rcases List.mem_append.1 hq with h1 | h2
          · exact hlinks q h1
          · rw [List.mem_singleton.1 h2]
            exact hh.1
        have hbound2 : view.nodes.length + 1 ≤ fuel + (trail ++ [h]).length := by
          rw [List.length_append, List.length_singleton]
          omega
        split
        · exact ⟨rfl, rfl, fun habs => absurd habs (by simp)⟩
        · rename_i hnohit
          split
          · rename_i lacts hl
            have hi := invalidCase st (trail ++ [h]) hnd2 hlinks2
            exact ⟨rfl, hi.1, fun _ => hi.2⟩
          · rename_i e rest2 lacts hl
            have hhop2 : ∀ h2, (some e.nexthop : Option Node) = some h2 →
                st.hints h h2 = true ∧ h2 ∈ view.nodes := by
              intro h2 hh2
              rw [Option.some.injEq] at hh2
              subst hh2
              have hmem2 : e ∈ (lk st h [curr]).1 := by
                rw [hl]
                exact List.mem_cons_self _ _
              exact hlk st h [curr] e hmem2
            have hr := ih st curr h (some e.nexthop) (trail ++ [h])
              (positions ++ [e.position]) hnd2 hsub2 hlast2 hlinks2 hhop2 hbound2
            exact ⟨hr.1, hr.2.1, hr.2.2⟩

theorem quotaPhase_hints (success : Bool) (inc : ℚ) :
    ∀ (pairs : List (Node × Nat)) (st : RsnState) (a b : Node),
      (quotaPhase success inc st pairs).hints a b = st.hints a b := by
  intro pairs
  induction pairs with
  | nil => intro st a b; rfl
  | cons p rest ih =>
    obtain ⟨node, pos⟩ := p
    intro st a b
    exact ih _ a b

/-- **C3 (amended)**: entered with any hint configuration whose neighbour sets
and hinted nexthops stay inside the node set, `follow_offpath_trail`
terminates with fuel equal to the number of network nodes (the walk visits
each node at most once before a repeat is caught), its trail bookkeeping never
trips the `RuntimeError` check, and on any failed walk (loop or dead end)
every link between consecutive nodes of the recorded trail is removed from
its node's table.  The loop-closing hint — the one consulted at the last
trail node, pointing back into the trail — is not removed (see the
counterexample). -/
theorem c3_walk_terminates_invalidates (view : DetourView) (st : RsnState)
    (inc quotaArg : ℚ) (curr h0 : Node) (pos0 : Nat) (on_path_trail : List Node)
    (off_path_trails : List (List Node))
    (hnbr : ∀ n m, m ∈ view.neighbors n → m ∈ view.nodes)
    (hcurr : curr ∈ view.nodes) (hh0n : h0 ∈ view.nodes)
    (hh0 : st.hints curr h0 = true) :
    (follow_offpath_trail_oph view inc view.nodes.length st curr h0 on_path_trail
      off_path_trails pos0 quotaArg).fuelOut = false ∧
    (follow_offpath_trail_oph view inc view.nodes.length st curr h0 on_path_trail
      off_path_trails pos0 quotaArg).invariantOk = true ∧
    ((follow_offpath_trail_oph view inc view.nodes.length st curr h0 on_path_trail
        off_path_trails pos0 quotaArg).servingNode = none →
      ∀ q ∈ pathLinks (follow_offpath_trail_oph view inc view.nodes.length st curr
        h0 on_path_trail off_path_trails pos0 quotaArg).trail,
        view.has_rsn_table q.1 = true →
        (follow_offpath_trail_oph view inc view.nodes.length st curr h0
          on_path_trail off_path_trails pos0 quotaArg).st.hints q.1 q.2 = false) := by
  have hlk : ∀ (s : RsnState) (node : Node) (ig : List Node),
      ∀ e ∈ (lookup_rsn_at_node view s node ig 1).1,
        s.hints node e.nexthop = true ∧ e.nexthop ∈ view.nodes := by
    intro s node ig e he
    have h2 := lookup_rsn_entry_mem view s node ig 1 e he
    exact ⟨h2.1, hnbr node e.nexthop h2.2⟩
  have hspec := offpathWalk_spec view (fun s n ig => lookup_rsn_at_node view s n ig 1)
    hlk view.nodes.length st curr curr (some h0) [curr] [pos0]
    (List.nodup_singleton curr)
    (by intro a ha; rw [List.mem_singleton.1 ha]; exact hcurr)
    rfl
    (by intro q hq; simp [pathLinks] at hq)
    (by intro h hh; rw [Option.some.injEq] at hh; subst hh; exact ⟨hh0, hh0n⟩)
    (by simp)
  simp only [follow_offpath_trail_oph]
  refine ⟨hspec.1, hspec.2.1, ?_⟩
  intro hserv q hq hta
  rw [quotaPhase_hints]
  exact hspec.2.2 hserv q hq hta

/-- Witness for C3: on the 3-node cycle scenario the walk completes within
fuel = 3 = number of nodes. -/
theorem c3_walk_terminates_invalidates_witness :
    (follow_offpath_trail_oph cycleView 1 cycleView.nodes.length cycleHints 1 2
      [1] [] 0 4).fuelOut = false :=
  (c3_walk_terminates_invalidates cycleView cycleHints 1 4 1 2 0 [1] []
    (by
      intro n m hm
      simp only [cycleView] at hm ⊢
      split_ifs at hm <;> simp_all <;> tauto)
    (by decide) (by decide) rfl).1

/-- **C3 counterexample**: on the 3-node hint cycle 1 → 2 → 3 → 1, the walk
records trail [1, 2, 3], detects the loop when the hint at 3 leads back to 1,
and invalidates the trail links 1 → 2 and 2 → 3 — but the hint 3 → 1, which
was consulted and traversed to detect the loop, remains in node 3's table,
contradicting the claim that every consulted hint of the walk is removed. -/
theorem c3_counterexample_closing_hint_survives :
    cycleFollow.trail = [1, 2, 3] ∧ cycleFollow.loopDetected = true ∧
    cycleFollow.servingNode = none ∧
    cycleFollow.st.hints 1 2 = false ∧ cycleFollow.st.hints 2 3 = false ∧
    cycleFollow.st.hints 3 1 = true := by
  norm_num [cycleFollow, follow_offpath_trail_oph, offpathWalk, cycleView, cycleHints,
    lookup_rsn_at_node, sortByKey, insertByKey, invalidate_tr, invalidateLinks,
    remove_rsn, pathLinks, quotaPhase]

/-! ## Return-phase lemmas shared by C2 and C4 -/

theorem requestHopActions_append (a b : List Action) :
    requestHopActions (a ++ b) = requestHopActions a ++ requestHopActions b := by
  unfold requestHopActions
  exact List.filter_append a b

theorem requestHopActions_scRequestHops (p : List Node) :
    requestHopActions (scRequestHops p) = scRequestHops p := by
  unfold requestHopActions scRequestHops
  rw [List.filter_eq_self]
  intro a ha
  obtain ⟨q, _, hEq⟩ := List.mem_map.1 ha
  rw [← hEq]

theorem requestHopActions_nonreq (acts : List Action)
    (h : ∀ a ∈ acts, (match a with
      | Action.forwardRequestHop _ _ => true
      | _ => false) = false) :
    requestHopActions acts = [] := by
  unfold requestHopActions
  rw [List.filter_eq_nil_iff]
  intro a ha
  rw [h a ha]
  simp

theorem scReturnSrcLoop_request (view : DetourView) (p : ℚ) (path : List Node) :
    ∀ (fuel hop : Nat) (visited : Node → Bool) (draws : List ℚ) (acc : List Action),
      requestHopActions (scReturnSrcLoop view p path fuel hop visited draws acc).2.2 =
      requestHopActions acc := by
  intro fuel
  induction fuel with
  | zero => intro hop visited draws acc; rfl
  | succ fuel ih =>
    intro hop visited draws acc
    simp only [scReturnSrcLoop]
    by_cases h1 : hop < path.length - 1
    · rw [if_pos h1]
      by_cases h2 : visited (path.getD (hop - 1) 0) = true
      · rw [if_pos h2]
      · rw [if_neg h2]
        by_cases h3 : view.hasCache (path.getD hop 0) = true
        · rw [if_pos h3]
          by_cases h4 : p = 1
          · rw [if_pos h4, ih]
            simp [requestHopActions_append, requestHopActions, List.filter]
          · rw [if_neg h4]
            by_cases h5 : draws.headD 0 ≤ p
            · rw [if_pos h5, ih]
              simp [requestHopActions_append, requestHopActions, List.filter]
            · rw [if_neg h5, ih]
              simp [requestHopActions_append, requestHopActions, List.filter]
        · rw [if_neg h3, ih]
          simp [requestHopActions_append, requestHopActions, List.filter]
    · rw [if_neg h1]

theorem scReturnCacheLoop_request (view : DetourView) (path : List Node) :
    ∀ (fuel hop : Nat) (visited : Node → Bool) (acc : List Action),
      requestHopActions (scReturnCacheLoop view path fuel hop visited acc).2 =
      requestHopActions acc := by
  intro fuel
  induction fuel with
  | zero => intro hop visited acc; rfl
  | succ fuel ih =>
    intro hop visited acc
    simp only [scReturnCacheLoop]
    by_cases h1 : hop < path.length - 1
    · rw [if_pos h1]
      by_cases h2 : visited (path.getD (hop - 1) 0) = true
      · rw [if_pos h2]
      · rw [if_neg h2, ih]
        simp [requestHopActions_append, requestHopActions, List.filter]
    · rw [if_neg h1]

theorem scReturnPhase_request_first_true (view : DetourView) (pa : ScParams) :
    ∀ (paths : List (List Node)) (visited : Node → Bool) (draws : List ℚ)
      (acc : List Action),
      requestHopActions (scReturnPhase view pa paths true visited draws acc) =
      requestHopActions acc := by
  intro paths
  induction paths with
  | nil => intro visited draws acc; rfl
  | cons pth rest ih =>
    intro visited draws acc
    simp only [scReturnPhase, if_pos]
    by_cases hl : pa.limit_replica = true
    · rw [if_pos hl]
      by_cases hs : pth.reverse.getD 0 0 = view.source
      · rw [if_pos hs, ih, scReturnSrcLoop_request]
      · rw [if_neg hs, ih, scReturnCacheLoop_request]
    · rw [if_neg hl, ih, scReturnCacheLoop_request]

theorem scReturnPhase_request_head (view : DetourView) (pa : ScParams)
    (pth : List Node) (rest : List (List Node)) (visited : Node → Bool)
    (draws : List ℚ) (acc : List Action) :
    requestHopActions (scReturnPhase view pa (pth :: rest) false visited draws acc) =
    requestHopActions acc ++ scRequestHops pth := by
  simp only [scReturnPhase, Bool.false_eq_true, if_false]
  by_cases hl : pa.limit_replica = true
  · rw [if_pos hl]
    by_cases hs : pth.reverse.getD 0 0 = view.source
    · rw [if_pos hs, scReturnPhase_request_first_true, scReturnSrcLoop_request,
        requestHopActions_append, requestHopActions_scRequestHops]
    · rw [if_neg hs, scReturnPhase_request_first_true, scReturnCacheLoop_request,
        requestHopActions_append, requestHopActions_scRequestHops]
  · rw [if_neg hl, scReturnPhase_request_first_true, scReturnCacheLoop_request,
      requestHopActions_append, requestHopActions_scRequestHops]

/-! ## C4: the empty-table forward phase -/

theorem lookup_sc_empty (view : DetourView) (st : RsnState) (node : Node)
    (ignore : List Node) (k : Nat) (hh : ∀ a b, st.hints a b = false) :
    lookup_rsn_at_node_sc view st node ignore k = ([], []) := by
  simp only [lookup_rsn_at_node_sc]
  have hfil : ∀ l : List Node, l.filter (fun n => st.hints node n) = [] := by
    intro l
    rw [List.filter_eq_nil_iff]
    intro a _
    rw [hh]
    simp
  rw [hfil]
  simp [sortByKey]

theorem requestHopActions_getContent (acc : List Action) (v : Node) (b : Bool) :
    requestHopActions (acc ++ [Action.getContent v b]) = requestHopActions acc := by
  rw [requestHopActions_append]
  simp [requestHopActions, List.filter]

theorem scForwardLoop_empty (view : DetourView) (pa : ScParams) (path : List Node)
    (st : RsnState) (hh : ∀ a b, st.hints a b = false)
    (hq : 0 ≤ pa.extra_quota)
    (hlast : path.getLast? = some view.source) :
    ∀ (fuel hop : Nat) (rq : ℚ) (onpt : List Node) (offt : List (List Node))
      (lks : List Node) (acc : List Action) (err : Bool),
      1 ≤ hop → hop ≤ path.length → path.length + 1 ≤ fuel + hop →
      rq = (path.length : ℚ) - hop + pa.extra_quota →
      (scForwardLoop view pa path fuel hop st rq onpt offt lks acc err).st = st ∧
      (scForwardLoop view pa path fuel hop st rq onpt offt lks acc
        err).off_path_trails = offt ∧
      (scForwardLoop view pa path fuel hop st rq onpt offt lks acc err).err = err ∧
      (scForwardLoop view pa path fuel hop st rq onpt offt lks acc err).fuelOut = false ∧
      (scForwardLoop view pa path fuel hop st rq onpt offt lks acc
        err).serving.isSome = true ∧
      (scForwardLoop view pa path fuel hop st rq onpt offt lks acc err).on_path_trail =
        onpt ++ plainOnPathTrailAux view (path.drop hop) ∧
      (scForwardLoop view pa path fuel hop st rq onpt offt lks acc err).lookups =
        lks ++ plainLookupNodes view (path.drop hop) ∧
      requestHopActions (scForwardLoop view pa path fuel hop st rq onpt offt lks acc
        err).acts = requestHopActions acc := by
  intro fuel
  induction fuel with
  | zero =>
    intro hop rq onpt offt lks acc err h1 h2 h3 hrq
    omega
  | succ fuel ih =>
    intro hop rq onpt offt lks acc err h1 h2 h3 hrq
    simp only [scForwardLoop]
    by_cases hin : hop < path.length
    · rw [if_pos hin]
      have hdrop : path.drop hop = path.getD hop 0 :: path.drop (hop + 1) := by
        rw [List.getD_eq_getElem?_getD, List.getElem?_eq_getElem hin]
        exact List.drop_eq_getElem_cons hin
      by_cases hhit : view.hasCache (path.getD hop 0) = true ∧
          view.hasContent (path.getD hop 0) = true
      · rw [if_pos hhit]
        refine ⟨rfl, rfl, rfl, rfl, rfl, ?_, ?_, ?_⟩
        · rw [hdrop]
          simp only [plainOnPathTrailAux]
          rw [if_pos hhit]
        · rw [hdrop]
          simp only [plainLookupNodes]
          rw [if_pos hhit]
          simp
        · exact requestHopActions_getContent acc _ true
      · rw [if_neg hhit]
        have hnobreak : ¬(rq - 1 ≤ 0 ∧ path.getD hop 0 ≠ view.source) := by
          intro hand
          rcases Nat.lt_or_ge (hop + 1) path.length with hlt | hge
          · have : (1 : ℚ) ≤ (path.length : ℚ) - (hop + 1) := by
              have : (hop + 2 : ℚ) ≤ (path.length : ℚ) := by
                exact_mod_cast Nat.succ_le_of_lt hlt
              linarith
            rw [hrq] at hand
            have h0 := hand.1
            push_cast at h0 this
            linarith [hq]
          · have hEq : hop = path.length - 1 := by omega
            have hv : path.getD hop 0 = view.source := by
              have hne : path ≠ [] := by
                intro hnil
                rw [hnil] at hlast
                simp at hlast
              rw [List.getLast?_eq_getLast path hne, Option.some.injEq] at hlast
              rw [List.getD_eq_getElem?_getD, List.getElem?_eq_getElem hin]
              rw [← hlast, List.getLast_eq_getElem]
              simp [hEq]
            exact hand.2 hv
        rw [if_neg hnobreak]
        rw [lookup_sc_empty view st (path.getD hop 0) [path.getD (hop - 1) 0]
          pa.fan_out hh]
        simp only [scInnerLoop]
        have hih := ih (hop + 1)
          (rq - 1)
          (onpt ++ [path.getD hop 0]) offt (lks ++ [path.getD hop 0])
          (acc ++ (if view.hasCache (path.getD hop 0) = true then
            [Action.getContent (path.getD hop 0) false] else []) ++ [])
          (err || false)
          (by omega) (by omega) (by omega)
          (by rw [hrq]; push_cast; ring)
        refine ⟨hih.1, hih.2.1, ?_, hih.2.2.2.1, hih.2.2.2.2.1, ?_, ?_, ?_⟩
        · rw [hih.2.2.1]
          simp
        · rw [hih.2.2.2.2.2.1, hdrop]
          simp only [plainOnPathTrailAux]
          rw [if_neg hhit]
          simp
        · rw [hih.2.2.2.2.2.2.1, hdrop]
          simp only [plainLookupNodes]
          rw [if_neg hhit]
          simp
        · rw [hih.2.2.2.2.2.2.2]
          rw [List.append_nil, requestHopActions_append]
          have : requestHopActions (if view.hasCache (path.getD hop 0) = true then
              [Action.getContent (path.getD hop 0) false] else []) = [] := by
            split <;> simp [requestHopActions, List.filter]
          rw [this, List.append_nil]
    · rw [if_neg hin]
      have hdrop : path.drop hop = [] := by
        apply List.drop_eq_nil_of_le
        omega
      refine ⟨rfl, rfl, rfl, rfl, rfl, ?_, ?_, ?_⟩
      · rw [hdrop]
        simp [plainOnPathTrailAux]
      · rw [hdrop]
        simp [plainLookupNodes]
      · exact requestHopActions_getContent acc _ true

/-! ## C2: ordering of the return-trail collection -/

/-- **C2 (amended)**: the return phase sorts only the off-path trails by
length (ascending, stably); the on-path trail — present whenever content was
found on-path, by cache hit or at the source — is appended after the sort, so
the whole collection need not be length-ascending; content is returned in
that collection order, and only the first trail of the collection (the
shortest off-path trail when any exists, otherwise the on-path trail) has its
request explicitly forwarded hop by hop. -/
theorem c2_return_order_amended (view : DetourView) (pa : ScParams)
    (off : List (List Node)) (onpt : List Node) (s : Bool)
    (visited : Node → Bool) (draws : List ℚ) (acc : List Action) :
    List.Sorted (fun a b : List Node => a.length ≤ b.length)
      (sortByKey (fun t => t.length) off) ∧
    (sortedReturnPaths off true onpt).getLast? = some onpt ∧
    (∀ hd rest, sortByKey (fun t => t.length) off = hd :: rest →
      (sortedReturnPaths off s onpt).head? = some hd ∧
      ∀ t ∈ off, hd.length ≤ t.length) ∧
    (sortedReturnPaths [] true onpt).head? = some onpt ∧
    (∀ pth rest2, requestHopActions
        (scReturnPhase view pa (pth :: rest2) false visited draws acc) =
      requestHopActions acc ++ scRequestHops pth) := by
  refine ⟨sortByKey_sorted _ off, ?_, ?_, rfl, ?_⟩
  · show (sortByKey (fun t => t.length) off ++ [onpt]).getLast? = some onpt
    rw [List.getLast?_concat]
  · intro hd rest hsort
    constructor
    · show (sortByKey (fun t => t.length) off ++
        (if s = true then [onpt] else [])).head? = some hd
      rw [hsort]
      rfl
    · exact fun t ht => sortByKey_head_min hsort t ht
  · intro pth rest2
    exact scReturnPhase_request_head view pa pth rest2 visited draws acc

/-- Witness for C2: the amended head property on the branch scenario's
collection. -/
theorem c2_return_order_amended_witness :
    (sortedReturnPaths [[0, 1, 5, 6]] true [0, 1, 2]).head? = some [0, 1, 5, 6] ∧
    ∀ t ∈ [[0, 1, 5, 6]], ([0, 1, 5, 6] : List Node).length ≤ t.length :=
  (c2_return_order_amended cycleView scDefaults [[0, 1, 5, 6]] [0, 1, 2] true
    (fun _ => false) [] []).2.2.1 [0, 1, 5, 6] [] rfl

/-- **C2 counterexample**: on the branch scenario, `LiraDfibSc.process_event`
collects the off-path trail [0, 1, 5, 6] (length 4) and the on-path trail
[0, 1, 2] (length 3), producing the collection [[0, 1, 5, 6], [0, 1, 2]] —
not ascending in length — and the request is forwarded along the length-4
off-path trail (hop 1 → 5 is request-forwarded), not along the shortest
trail of the collection (the link 1 → 2 is never request-forwarded). -/
theorem c2_counterexample_onpath_appended_after_sort :
    branchRun.sorted_paths = [[0, 1, 5, 6], [0, 1, 2]] ∧
    branchRun.sorted_paths.map (fun t => t.length) = [4, 3] ∧
    ¬((4 : Nat) ≤ 3) ∧
    (Action.forwardRequestHop 1 5) ∈ branchRun.acts ∧
    (Action.forwardRequestHop 1 2) ∉ branchRun.acts ∧
    branchRun.err = false := by
  norm_num [branchRun, scProcessEvent, scForwardLoop, scInnerLoop, branchView,
    branchHints, scDefaults, lookup_rsn_at_node_sc, sortByKey, insertByKey,
    follow_offpath_trail_sc, offpathWalk, invalidate_tr, invalidateLinks, remove_rsn,
    pathLinks, sortedReturnPaths, scReturnPhase, scReturnSrcLoop, scReturnCacheLoop,
    scRequestHops]
  decide

/-! ## C4: LIRA_DFIB_SC with extra_quota = 0 -/

/-- **C4 (amended)**: with `extra_quota = 0` (indeed with any non-negative
extra quota) the budget stays positive at every on-path hop before the final
one, so `process_event` still consults the hint table at every visited
intermediate hop — the claim's "never consults" fails (see the
counterexample, where a detour is even launched).  What does hold is the
degenerate case: when every consulted table is empty, no detour occurs, the
walk and serving node coincide with plain shortest-path on-path forwarding,
and the request-forwarding actuations are exactly the links of the plain
on-path trail; but the table is still consulted at each hop before the
serving node. -/
theorem c4_zero_quota_amended (view : DetourView) (pa : ScParams) (receiver : Node)
    (st : RsnState) (draws : List ℚ)
    (hh : ∀ a b, st.hints a b = false)
    (hq : 0 ≤ pa.extra_quota)
    (hfirst : (view.shortest_path receiver view.source).head? = some receiver)
    (hlast : (view.shortest_path receiver view.source).getLast? = some view.source) :
    (scProcessEvent view pa receiver st draws).off_path_trails = [] ∧
    (scProcessEvent view pa receiver st draws).serving.isSome = true ∧
    (scProcessEvent view pa receiver st draws).on_path_trail =
      plainOnPathTrail view (view.shortest_path receiver view.source) ∧
    (scProcessEvent view pa receiver st draws).sorted_paths =
      [plainOnPathTrail view (view.shortest_path receiver view.source)] ∧
    requestHopActions (scProcessEvent view pa receiver st draws).acts =
      scRequestHops (plainOnPathTrail view (view.shortest_path receiver view.source)) ∧
    (2 ≤ (view.shortest_path receiver view.source).length →
      ¬(view.hasCache ((view.shortest_path receiver view.source).getD 1 0) = true ∧
        view.hasContent ((view.shortest_path receiver view.source).getD 1 0) = true) →
      (scProcessEvent view pa receiver st draws).lookups ≠ []) := by
  have hpathne : view.shortest_path receiver view.source ≠ [] := by
    intro hnil
    rw [hnil] at hlast
    simp at hlast
  have hlen1 : 1 ≤ (view.shortest_path receiver view.source).length :=
    List.length_pos.2 hpathne
  have hfwd := scForwardLoop_empty view pa (view.shortest_path receiver view.source)
    st hh hq hlast (view.shortest_path receiver view.source).length 1
    (((view.shortest_path receiver view.source).length : ℚ) - 1 + pa.extra_quota)
    [receiver] [] [] [] false (le_refl 1) hlen1 (by omega) (by norm_num)
  have htrail : [receiver] ++ plainOnPathTrailAux view
      ((view.shortest_path receiver view.source).drop 1) =
      plainOnPathTrail view (view.shortest_path receiver view.source) := by
    cases hp : view.shortest_path receiver view.source with
    | nil => exact absurd hp hpathne
    | cons a l =>
      have ha : a = receiver := by
        rw [hp] at hfirst
        simpa using hfirst
      subst ha
      simp [plainOnPathTrail]
  simp only [scProcessEvent]
  refine ⟨hfwd.2.1, hfwd.2.2.2.2.1, ?_, ?_, ?_, ?_⟩
  · rw [hfwd.2.2.2.2.2.1]
    exact htrail
  · rw [sortedReturnPaths, hfwd.2.1, hfwd.2.2.2.2.1, hfwd.2.2.2.2.2.1]
    rw [htrail]
    simp [sortByKey]
  · rw [sortedReturnPaths, hfwd.2.1, hfwd.2.2.2.2.1, hfwd.2.2.2.2.2.1, htrail]
    have hsp : sortByKey (fun t : List Node => t.length) [] ++
        (if true = true then [plainOnPathTrail view
          (view.shortest_path receiver view.source)] else []) =
        [plainOnPathTrail view (view.shortest_path receiver view.source)] := by
      simp [sortByKey]
    rw [hsp, scReturnPhase_request_head, hfwd.2.2.2.2.2.2.2]
    rfl
  · intro hlen2 hnohit
    rw [hfwd.2.2.2.2.2.2.1]
    have hdrop : (view.shortest_path receiver view.source).drop 1 =
        (view.shortest_path receiver view.source).getD 1 0 ::
        (view.shortest_path receiver view.source).drop 2 := by
      have h12 : 1 < (view.shortest_path receiver view.source).length := by omega
      rw [List.getD_eq_getElem?_getD, List.getElem?_eq_getElem h12]
      exact List.drop_eq_getElem_cons h12
    rw [hdrop]
    simp only [plainLookupNodes]
    rw [if_neg hnohit]
    simp

/-- Witness for C4: on the 3-node line with empty hint tables and
`extra_quota = 0`, no detour happens, the request is forwarded along exactly
the plain shortest-path links, and the hint table is still consulted. -/
theorem c4_zero_quota_amended_witness :
    zeroQuotaEmptyRun.off_path_trails = [] ∧ zeroQuotaEmptyRun.lookups ≠ [] := by
  have h := c4_zero_quota_amended zeroQuotaView
    { scDefaults with extra_quota := 0 } 0 emptyHints []
    (fun _ _ => rfl) (by norm_num) rfl rfl
  exact ⟨h.1, h.2.2.2.2.2 (by norm_num [zeroQuotaView]) (by norm_num [zeroQuotaView])⟩

/-- **C4 counterexample**: with `extra_quota = 0` on the zero-quota scenario
(one hint 1 → 5 toward an off-path cache), `LiraDfibSc.process_event`
consults the hint table at nodes 1 and 2, launches a detour
(`follow_trail` telemetry is issued and content is fetched from the off-path
cache 5), so it neither avoids the hint table nor behaves like plain
shortest-path forwarding. -/
theorem c4_counterexample_consults_with_zero_quota :
    zeroQuotaRun.lookups = [1, 2] ∧
    zeroQuotaRun.off_path_trails = [[0, 1, 5]] ∧
    (Action.followTrail 1 true) ∈ zeroQuotaRun.acts ∧
    (Action.getContent 5 true) ∈ zeroQuotaRun.acts ∧
    zeroQuotaRun.err = false := by
  norm_num [zeroQuotaRun, scProcessEvent, scForwardLoop, scInnerLoop, zeroQuotaView,
    zeroQuotaHints, scDefaults, lookup_rsn_at_node_sc, sortByKey, insertByKey,
    follow_offpath_trail_sc, offpathWalk, invalidate_tr, invalidateLinks, remove_rsn,
    pathLinks, sortedReturnPaths, scReturnPhase, scReturnSrcLoop, scReturnCacheLoop,
    scRequestHops]

end EFib
